import Mathlib

/-!
# go-rename: the rename scheduler and the replacers

A shallow embedding of `new.go` (candidate validation and the recursive
`Rename`), of the replacers in `replacers.go`, and of the older main loop in
`go-rename.go`, with the properties proved about them.

Go `string` values are Lean `String`s read character by character; a `*File`
pointer is the index of the candidate in the `matches` slice.
-/

namespace GoRename

/-! ## The embedding -/

/-- The `File` struct of `new.go`. -/
structure File where
  From : String
  To : String
  done : Bool
deriving DecidableEq, Repr, Inhabited

/-- The `others` map (`map[string]*File`): the newest binding of a key comes first. -/
abbrev Others := List (String × Nat)

/-- Map read `others[k]` with the `ok` flag. -/
def Others.get (others : Others) (k : String) : Option Nat :=
  List.lookup k others

/-- Map write `others[k] = v`. -/
def Others.put (others : Others) (k : String) (v : Nat) : Others :=
  (k, v) :: others

/-- The three messages the processing loop of `main` hands to `complain`. -/
inductive Complaint where
  | multiple (dest : String)
  | swapping (matchFrom matchTo otherFrom otherTo : String)
  | alreadyExists (matchFrom matchTo : String)
deriving DecidableEq, Repr

/-- The inner loop `for _, other := range matches` of `main` (new.go 174-188) for the
candidate `m` at index `mi`; `oi` is the index of the head of the remaining slice and
`ex` the current value of `exists`. -/
def checkOthers (m : File) (mi : Nat) : List File → Nat → Bool → Except Complaint Bool
  | [], _, ex => .ok ex
  | other :: rest, oi, ex =>
    if oi = mi then checkOthers m mi rest (oi + 1) ex
    else if other.To = m.To then .error (.multiple m.To)
    else if other.To = m.From ∧ m.To = other.From then
      .error (.swapping m.From m.To other.From other.To)
    else if ex = true ∧ other.From = m.To then checkOthers m mi rest (oi + 1) false
    else checkOthers m mi rest (oi + 1) ex

/-- The outer loop `for _, match := range matches` of `main` (new.go 168-195); `stat p`
tells whether `os.Stat(p)` succeeds. -/
def validateLoop (stat : String → Bool) (all : List File) :
    List File → Nat → Others → Except Complaint Others
  | [], _, others => .ok others
  | m :: rest, mi, others =>
    match checkOthers m mi all 0 (stat m.To) with
    | .error c => .error c
    | .ok true => .error (.alreadyExists m.From m.To)
    | .ok false => validateLoop stat all rest (mi + 1) (others.put m.From mi)

/-- The validation phase of `main`: it either complains or yields the `others` map. -/
def validate (stat : String → Bool) (matches_ : List File) : Except Complaint Others :=
  validateLoop stat matches_ matches_ 0 []

/-- The fields of the global `opts` that the scheduler and the replacers read. -/
structure Opts where
  Recurse : Bool
  Verbose : Bool
  Testing : Bool
  ZeroPad : Int
  Num : Int
deriving DecidableEq, Repr

/-- What the execution phase acts on: the candidates behind the `*File` pointers, the set
of existing paths, the `os.Rename` calls issued so far (oldest first) and the lines
written to standard output. -/
structure World where
  files : List File
  fs : List String
  calls : List (String × String)
  out : List String
deriving DecidableEq, Repr

/-- A call either returns or exhausts the recursion budget (Go's stack); both carry the
world reached. -/
inductive Res where
  | returned (w : World)
  | overflow (w : World)
deriving DecidableEq, Repr

/-- The world a result carries. -/
def Res.world : Res → World
  | .returned w => w
  | .overflow w => w

/-- The rename primitive on a set of paths: it fails when the source is missing, and
otherwise the source path disappears and the destination path exists. -/
def setRename (fs : List String) (src dst : String) : Option (List String) :=
  if src ∈ fs then some (dst :: fs.filter (fun p => p ≠ src)) else none

/-- The line `fmt.Printf(" %s -> %s\n", f.From, f.To)`. -/
def renameLine (f : File) : String :=
  " " ++ f.From ++ " -> " ++ f.To ++ "\n"

/-- The guarded block that ends `Rename` (new.go 212-222): when the candidate is not done
it is marked, reported as the options ask, and the rename primitive is invoked unless
`opts.Testing` is set; the primitive's error is discarded. -/
def performRename (opts : Opts)
    (osRename : List String → String → String → Option (List String))
    (f : Nat) (w1 : World) : World :=
  match w1.files[f]? with
  | none => w1
  | some file1 =>
    if !file1.done then
      let w2 := { w1 with files := w1.files.set f { file1 with done := true } }
      if opts.Testing then
        { w2 with out := w2.out ++ [renameLine file1] }
      else
        let w3 := if opts.Verbose then
          { w2 with out := w2.out ++ [renameLine file1] } else w2
        { w3 with
          calls := w3.calls ++ [(file1.From, file1.To)]
          fs := (osRename w3.fs file1.From file1.To).getD w3.fs }
    else w1

/-- The function `Rename` of `new.go` (203-223) with the candidate `f` given by its index.
`osRename` is the rename primitive (`none` is an error); the first argument bounds the
recursion depth. -/
def Rename (opts : Opts) (osRename : List String → String → String → Option (List String))
    (others : Others) : Nat → Nat → World → Res
  | 0, _, w => .overflow w
  | fuel + 1, f, w =>
    match w.files[f]? with
    | none => .returned w
    | some file =>
      if file.done then .returned w
      else
        match others.get file.To with
        | some other =>
          match Rename opts osRename others fuel other w with
          | .overflow w1 => .overflow w1
          | .returned w1 => .returned (performRename opts osRename f w1)
        | none => .returned (performRename opts osRename f w)

/-- The loop `for _, file := range matches { Rename(file, others) }` over the pointers `fs`. -/
def renameAll (opts : Opts) (osRename : List String → String → String → Option (List String))
    (others : Others) (fuel : Nat) : List Nat → World → Res
  | [], w => .returned w
  | f :: rest, w =>
    match Rename opts osRename others fuel f w with
    | .returned w1 => renameAll opts osRename others fuel rest w1
    | .overflow w1 => .overflow w1

/-- How a run of the processing part of `main` ends. -/
inductive Outcome where
  | complained (c : Complaint) (w : World)
  | finished (w : World)
  | overflow (w : World)
deriving DecidableEq, Repr

/-- The world at the end of a run. -/
def Outcome.world : Outcome → World
  | .complained _ w => w
  | .finished w => w
  | .overflow w => w

/-- The world in which processing starts: no call issued, nothing printed. -/
def initWorld (fs : List String) (matches_ : List File) : World :=
  { files := matches_, fs := fs, calls := [], out := [] }

/-- The execution phase of `main` (new.go 197-200) from the initial world. -/
def execute (opts : Opts) (osRename : List String → String → String → Option (List String))
    (fs : List String) (matches_ : List File) (others : Others) (fuel : Nat) : Res :=
  renameAll opts osRename others fuel (List.range matches_.length) (initWorld fs matches_)

/-- The processing part of `main` (new.go 166-200): validation against the paths of `fs`
(`complain` exits the process), then the execution phase. -/
def processMatches (opts : Opts)
    (osRename : List String → String → String → Option (List String))
    (fs : List String) (matches_ : List File) (fuel : Nat) : Outcome :=
  match validate (fun p => decide (p ∈ fs)) matches_ with
  | .error c => .complained c (initWorld fs matches_)
  | .ok others =>
    match execute opts osRename fs matches_ others fuel with
    | .returned w => .finished w
    | .overflow w => .overflow w

/-- The file system after the calls of a trace, errors discarded as `Rename` does. -/
def replay (osRename : List String → String → String → Option (List String)) :
    List String → List (String × String) → List String
  | fs, [] => fs
  | fs, (src, dst) :: rest => replay osRename ((osRename fs src dst).getD fs) rest

/-- Every call of the trace is issued when its destination path does not exist. -/
def collisionFree (osRename : List String → String → String → Option (List String)) :
    List String → List (String × String) → Prop
  | _, [] => True
  | fs, (src, dst) :: rest =>
    dst ∉ fs ∧ collisionFree osRename ((osRename fs src dst).getD fs) rest

/-- Candidate `i` renames onto the path candidate `k` starts from. -/
def Linked (cs : List File) (i k : Nat) : Prop :=
  ∃ (a b : File), cs[i]? = some a ∧ cs[k]? = some b ∧ a.To = b.From

/-- The candidates `cyc = c1..cn` are distinct, `n ≥ 2`, each `ci.To` is `c(i+1).From`,
and `cn.To` is `c1.From`. -/
def RenameCycle (cs : List File) (cyc : List Nat) : Prop :=
  2 ≤ cyc.length ∧ cyc.Nodup ∧ List.Chain' (Linked cs) cyc ∧
    ∃ (a b : Nat), cyc.getLast? = some a ∧ cyc.head? = some b ∧ Linked cs a b

/-- Two distinct candidates with the same destination. -/
def DupTo (cs : List File) : Prop :=
  ∃ (i j : Nat) (a b : File), i ≠ j ∧ cs[i]? = some a ∧ cs[j]? = some b ∧ a.To = b.To

/-- Two distinct candidates `A`, `B` with `A.To == B.From` and `B.To == A.From`. -/
def SwapPair (cs : List File) : Prop :=
  ∃ (i j : Nat) (a b : File), i ≠ j ∧ cs[i]? = some a ∧ cs[j]? = some b ∧ a.To = b.From ∧ b.To = a.From

/-- Some candidate's destination exists on disk and is not the `From` of another candidate. -/
def Blocked (stat : String → Bool) (cs : List File) : Prop :=
  ∃ (i : Nat) (a : File), cs[i]? = some a ∧ stat a.To = true ∧
    ¬ ∃ (j : Nat) (b : File), j ≠ i ∧ cs[j]? = some b ∧ b.From = a.To

/-- The map the outer loop has built after running over `l` (whose head has index `mi`)
from the map `acc`. -/
def othersOf : List File → Nat → Others → Others
  | [], _, acc => acc
  | m :: rest, mi, acc => othersOf rest (mi + 1) (acc.put m.From mi)

/-- The pair a candidate hands to the rename primitive. -/
def File.pair (c : File) : String × String := (c.From, c.To)

/-- The scheduler's invariant between calls: `ord` lists the candidates marked done in
the order in which they were marked. -/
structure Sched (opts : Opts) (osRename : List String → String → String → Option (List String))
    (fs0 : List String) (cs : List File) (w : World) (ord : List Nat) : Prop where
  len : w.files.length = cs.length
  same : ∀ (i : Nat) (f : File), w.files[i]? = some f →
    ∃ c, cs[i]? = some c ∧ f.From = c.From ∧ f.To = c.To
  done_iff : ∀ i : Nat, i ∈ ord ↔ ∃ f, w.files[i]? = some f ∧ f.done = true
  nodup : ord.Nodup
  closed : ∀ i k : Nat, i ∈ ord → Linked cs i k → k ∈ ord
  before : ord.Pairwise (fun a b => ¬ Linked cs a b)
  calls : w.calls = if opts.Testing then [] else ord.filterMap (fun i => cs[i]?.map File.pair)
  out : w.out = if opts.Testing ∨ opts.Verbose then
    ord.filterMap (fun i => cs[i]?.map renameLine) else []
  fs : w.fs = replay osRename fs0 w.calls

/-- What the execution phase relies on: the map sends a path to the candidate starting
there, and no candidate chain closes up. -/
structure Setup (cs : List File) (others : Others) : Prop where
  get_some : ∀ (k : String) (j : Nat), others.get k = some j →
    ∃ c, cs[j]? = some c ∧ c.From = k
  get_of : ∀ (j : Nat) (c : File), cs[j]? = some c → others.get c.From = some j
  acyclic : ∀ cyc, ¬ RenameCycle cs cyc
  irrefl : ∀ i, ¬ Linked cs i i

/-- Some candidate of `pre` renames onto `p`. -/
def ToIn (cs : List File) (pre : List Nat) (p : String) : Prop :=
  ∃ (i : Nat) (c : File), i ∈ pre ∧ cs[i]? = some c ∧ c.To = p

/-- Some candidate of `pre` starts at `p`. -/
def FromIn (cs : List File) (pre : List Nat) (p : String) : Prop :=
  ∃ (i : Nat) (c : File), i ∈ pre ∧ cs[i]? = some c ∧ c.From = p

/-- A live run: nothing is reported, renames are performed, one replacement per name. -/
def liveOpts : Opts :=
  { Recurse := false, Verbose := false, Testing := false, ZeroPad := 0, Num := 1 }

/-- A dry run (`--test`). -/
def dryOpts : Opts :=
  { Recurse := false, Verbose := false, Testing := true, ZeroPad := 0, Num := 1 }

/-- The chain `a -> b`, `b -> c`, listed so that the first candidate is blocked by the second. -/
def chainMatches : List File :=
  [{ From := "a", To := "b", done := false }, { From := "b", To := "c", done := false }]

/-- The three candidates `a -> b`, `b -> c`, `c -> a`. -/
def threeCycle : List File :=
  [{ From := "a", To := "b", done := false }, { From := "b", To := "c", done := false },
   { From := "c", To := "a", done := false }]

/-- The swap `a -> b`, `b -> a`. -/
def swapMatches : List File :=
  [{ From := "a", To := "b", done := false }, { From := "b", To := "a", done := false }]

/-- Go's `strings.Index` on the characters of the strings: the offset of the first
occurrence of `sub`, if there is one. -/
def indexOf (sub : List Char) : List Char → Option Nat
  | [] => if sub = [] then some 0 else none
  | c :: cs =>
    if sub.isPrefixOf (c :: cs) then some 0
    else (indexOf sub cs).map (fun i => i + 1)

/-- Go's `strings.Index`, with `-1` for no occurrence. -/
def stringsIndex (s sub : String) : Int :=
  match indexOf sub.data s.data with
  | some i => (i : Int)
  | none => -1

/-- The loop of Go's `strings.Count` for a non-empty `old`: each round looks for the next
occurrence and continues behind it. -/
def countFrom (old : List Char) : Nat → List Char → Nat
  | 0, _ => 0
  | fuel + 1, s =>
    match indexOf old s with
    | none => 0
    | some i => 1 + countFrom old fuel (s.drop (i + old.length))

/-- Go's `strings.Count`: the non-overlapping occurrences of `old`, and one more than the
number of characters when `old` is empty. -/
def stringsCount (s old : List Char) : Nat :=
  if old = [] then s.length + 1 else countFrom old (s.length + 1) s

/-- The replacement loop of Go's `strings.Replace` run for `k` more rounds on the rest of
the string; `later` tells that a round has been done before. -/
def replaceLoop (old new : List Char) : Nat → Bool → List Char → List Char
  | 0, _, rest => rest
  | k + 1, later, rest =>
    let j := if old = [] then (if later then 1 else 0) else (indexOf old rest).getD 0
    rest.take j ++ new ++ replaceLoop old new k true (rest.drop (j + old.length))

/-- Go's `strings.Replace(s, old, new, n)`. -/
def stringsReplace (s old new : String) (n : Int) : String :=
  if old = new ∨ n = 0 then s
  else
    let m := stringsCount s.data old.data
    if m = 0 then s
    else
      let n' := if n < 0 ∨ (m : Int) < n then m else n.toNat
      ⟨replaceLoop old.data new.data n' false s.data⟩

/-- The slice `s[i:j]`. -/
def slice (s : String) (i j : Nat) : String :=
  ⟨(s.data.take j).drop i⟩

/-- A compiled pattern of Go's `regexp` package, given by what the scheduler's code asks
of it: the successive non-overlapping matches in a subject, as `(start, end)` offsets. -/
structure Regexp where
  findAllIndex : String → List (Nat × Nat)

/-- Go's `(*Regexp).FindAllString(s, n)`: the text of the first `n` matches, of all of
them when `n` is negative. -/
def Regexp.FindAllString (re : Regexp) (s : String) (n : Int) : List String :=
  let all := (re.findAllIndex s).map (fun m => slice s m.1 m.2)
  if n < 0 then all else all.take n.toNat

/-- The matches of `\d+` in the characters from offset `pos` on; `start` is the offset at
which the digit run being read began. -/
def digitRuns : List Char → Nat → Option Nat → List (Nat × Nat)
  | [], pos, some st => [(st, pos)]
  | [], _, none => []
  | c :: cs, pos, none =>
    if c.isDigit then digitRuns cs (pos + 1) (some pos) else digitRuns cs (pos + 1) none
  | c :: cs, pos, some st =>
    if c.isDigit then digitRuns cs (pos + 1) (some st)
    else (st, pos) :: digitRuns cs (pos + 1) none

/-- The pattern `\d+`: its matches are the maximal runs of decimal digits of the
subject, from left to right. -/
def digitsRegexp : Regexp :=
  { findAllIndex := fun s => digitRuns s.data 0 none }

/-- The type `StringReplacer` of `replacers.go`. -/
abbrev StringReplacer := String

/-- The loop of `StringReplacer.Replace` (replacers.go 23-28) over the matches still to
come, with the buffer `buf` and the rest `s` of the name; `none` is the run-time panic of
the slice `s[:i]` when `strings.Index` returns `-1`. -/
def replaceMatches (r : StringReplacer) : List String → String → String → Option String
  | [], buf, _ => some buf
  | m :: rest, buf, s =>
    match indexOf m.data s.data with
    | none => none
    | some i =>
      replaceMatches r rest (buf ++ slice s 0 i ++ r) (slice s (i + m.length) s.length)

/-- The method `StringReplacer.Replace` of `replacers.go` (17-31). -/
def StringReplacer.Replace (r : StringReplacer) (opts : Opts) (s src : String)
    (regex : Option Regexp) : Option String :=
  match regex with
  | none => some (stringsReplace s src r opts.Num)
  | some re => replaceMatches r (re.FindAllString s opts.Num) "" s

/-- The struct `Match` of `go-rename.go`. -/
structure Match where
  Path : String
  Match : String
deriving DecidableEq, Repr

/-- What the loop of the older `main` acts on: the existing paths, the `os.Rename` calls
issued and the lines printed. -/
structure OldWorld where
  fs : List String
  calls : List (String × String)
  out : List String
deriving DecidableEq, Repr

/-- The function `ReplaceString` of `go-rename.go` (53-67); the flag returned tells
whether the error returned is non-nil. -/
def ReplaceString (verbose testing : Bool)
    (osRename : List String → String → String → Option (List String))
    (m : Match) (replacement : String) (w : OldWorld) : OldWorld × Bool :=
  let after := stringsReplace m.Path m.Match replacement 1
  let w1 := if verbose ∧ ¬ testing then
    { w with out := w.out ++ ["Replacing \"" ++ m.Path ++ "\" with \"" ++ after ++ "\".\n"] }
    else w
  if ¬ testing then
    match osRename w1.fs m.Path after with
    | some fs' => ({ w1 with calls := w1.calls ++ [(m.Path, after)], fs := fs' }, false)
    | none => ({ w1 with calls := w1.calls ++ [(m.Path, after)] }, true)
  else
    ({ w1 with out := w1.out ++
        ["Would have replaced \"" ++ m.Path ++ "\" with \"" ++ after ++ "\".\n"] }, false)

/-- How the loop of the older `main` ends. -/
inductive OldOutcome where
  | finished (w : OldWorld)
  | panicked (w : OldWorld)
deriving DecidableEq, Repr

/-- The loop `for _, match := range matches` of the older `main` (go-rename.go 210-231)
when `-toRegex` is not given: both remaining branches call `ReplaceString` with the value
of `-to` and panic on its error. -/
def oldMainLoop (verbose testing : Bool)
    (osRename : List String → String → String → Option (List String)) (dest : String) :
    List Match → OldWorld → OldOutcome
  | [], w => .finished w
  | m :: rest, w =>
    let w0 := if verbose then
      { w with out := w.out ++ ["Found match \"" ++ m.Path ++ "\".\n"] } else w
    match ReplaceString verbose testing osRename m dest w0 with
    | (w1, true) => .panicked w1
    | (w1, false) => oldMainLoop verbose testing osRename dest rest w1

/-- Some candidate renames the path `p` to the path `q`. -/
def PathLink (cs : List File) (p q : String) : Prop :=
  ∃ c ∈ cs, c.From = p ∧ c.To = q

/-- A rename cycle given by the source paths of its candidates. -/
def PathCycle (cs : List File) (ps : List String) : Prop :=
  2 ≤ ps.length ∧ ps.Nodup ∧ List.Chain' (PathLink cs) ps ∧
    ∃ (a b : String), ps.getLast? = some a ∧ ps.head? = some b ∧ PathLink cs a b

/-- The source path of candidate `i`. -/
def fromAt (cs : List File) (i : Nat) : String :=
  (cs[i]?.map File.From).getD ""

/-- The position of the candidate that starts at `p`. -/
def indexAt (cs : List File) (p : String) : Nat :=
  (cs.map File.From).indexOf p

/-- What `complain` is handed: a literal text, or the text of the error of a failed
`strconv.Atoi(arg)`. -/
inductive Message where
  | text (s : String)
  | atoi (arg : String)
deriving DecidableEq, Repr

/-- How a constructor or a callback ends: with a value, in `complain` (which exits the
process with the message), or without returning (a run-time panic or an endless loop). -/
inductive Ended (α : Type) where
  | ok (a : α)
  | complained (msg : Message)
  | crashed
deriving DecidableEq, Repr

/-- The characters that may follow `%` in the template of `NewRegexMatcher` to name a
character class. -/
def isClassLetter (c : Char) : Bool :=
  c = 'd' || c = 'D' || c = 's' || c = 'S' || c = 'w' || c = 'W'

/-- The loop of `NewRegexMatcher` (matchers.go 48-75) on the rest `s` of the template with
the buffer `buf`; the first argument bounds the number of rounds. -/
def matcherLoop : Nat → List Char → List Char → Ended String
  | 0, _, _ => .crashed
  | fuel + 1, s, buf =>
    match indexOf ['%'] s with
    | none => .ok ⟨buf⟩
    | some i =>
      let buf := buf ++ s.take i
      if s.length = i + 1 then .ok ⟨buf ++ ['%']⟩
      else
        let c := s.getD (i + 1) ' '
        if isClassLetter c then matcherLoop fuel (s.drop (i + 2)) (buf ++ ['\\', c])
        else if c = '%' then matcherLoop fuel (s.drop (i + 2)) (buf ++ ['%'])
        else .complained (.text ("Error: Could not parse regex. "
          ++ String.mk ((s.take (i + 2)).drop i) ++ " is not a valid combination."))

/-- The function `NewRegexMatcher` of `matchers.go` (46-77); the value returned is the
source text handed to `regexp.MustCompile`. Every round but the last removes two
characters of the template, so the bound is never reached. -/
def NewRegexMatcher (s : String) : Ended String :=
  matcherLoop (s.length + 1) s.data []

/-- Reading a template left to right, each `%` together with the character behind it:
some `%` is followed by a character other than `s`, `S`, `w`, `W`, `d`, `D` or `%`. -/
def badPair : List Char → Bool
  | [] => false
  | [_] => false
  | c :: d :: rest =>
    if c = '%' then (if isClassLetter d || d = '%' then badPair rest else true)
    else badPair (d :: rest)

/-- Reading a template left to right in the same way, its last character is a `%` that
no character follows. -/
def loneEnd : List Char → Bool
  | [] => false
  | [c] => c = '%'
  | c :: d :: rest => if c = '%' then loneEnd rest else loneEnd (d :: rest)

/-- The template with each `%X` replaced by `\X`, each `%%` by `%`, and everything else
kept, as the shorthand is described. -/
def expandShorthand : List Char → List Char
  | [] => []
  | [c] => [c]
  | c :: d :: rest =>
    if c = '%' then
      (if isClassLetter d then '\\' :: d :: expandShorthand rest
       else d :: expandShorthand rest)
    else c :: expandShorthand (d :: rest)

/-- Regular expressions of the fragment of Go's syntax used here: single characters, `.`,
the classes `\d \D \s \S \w \W`, sequencing and the postfix operators. -/
inductive Rx where
  | fail
  | eps
  | chr (c : Char)
  | dot
  | cls (k : Char)
  | seq (a b : Rx)
  | alt (a b : Rx)
  | star (a : Rx)
deriving DecidableEq, Repr

/-- Membership in a Perl character class of Go's `regexp` (ASCII only). -/
def classHas (k c : Char) : Bool :=
  if k = 'd' then c.isDigit
  else if k = 'D' then !c.isDigit
  else if k = 's' then c = '\t' || c = '\n' || c = '\x0c' || c = '\r' || c = ' '
  else if k = 'S' then !(c = '\t' || c = '\n' || c = '\x0c' || c = '\r' || c = ' ')
  else if k = 'w' then c.isAlphanum || c = '_'
  else !(c.isAlphanum || c = '_')

/-- The expression matches the empty text. -/
def Rx.nullable : Rx → Bool
  | .fail => false
  | .eps => true
  | .chr _ => false
  | .dot => false
  | .cls _ => false
  | .seq a b => a.nullable && b.nullable
  | .alt a b => a.nullable || b.nullable
  | .star _ => true

/-- What is left to match after the character `c` has been read. -/
def Rx.deriv : Rx → Char → Rx
  | .fail, _ => .fail
  | .eps, _ => .fail
  | .chr x, c => if x = c then .eps else .fail
  | .dot, c => if c = '\n' then .fail else .eps
  | .cls k, c => if classHas k c then .eps else .fail
  | .seq a b, c =>
    if a.nullable then .alt (.seq (a.deriv c) b) (b.deriv c) else .seq (a.deriv c) b
  | .alt a b, c => .alt (a.deriv c) (b.deriv c)
  | .star a, c => .seq (a.deriv c) (.star a)

/-- Some prefix of the text matches the expression. -/
def Rx.prefixMatch : Rx → List Char → Bool
  | r, [] => r.nullable
  | r, c :: cs => r.nullable || Rx.prefixMatch (r.deriv c) cs

/-- Some part of the text matches the expression (`MatchString`). -/
def Rx.search : Rx → List Char → Bool
  | r, [] => r.nullable
  | r, c :: cs => r.prefixMatch (c :: cs) || r.search cs

/-- The characters with a meaning of their own in Go's pattern syntax. -/
def isMetaChar (c : Char) : Bool :=
  c = '\\' || c = '.' || c = '+' || c = '*' || c = '?' || c = '(' || c = ')' || c = '|' ||
  c = '[' || c = ']' || c = '{' || c = '}' || c = '^' || c = '$'

/-- Reads a pattern of the fragment character by character: `acc` is the expression read
so far without its last item, `cur` the last item (which a postfix operator may still
change), `esc` tells that the previous character was a backslash. -/
def parseRx : List Char → Rx → Option Rx → Bool → Bool → Option Rx
  | [], acc, cur, _, esc =>
    if esc then none
    else match cur with
      | none => some acc
      | some a => some (.seq acc a)
  | c :: rest, acc, cur, post, esc =>
    let acc' := match cur with
      | none => acc
      | some a => .seq acc a
    if esc then
      if isClassLetter c then parseRx rest acc' (some (.cls c)) true false else none
    else if c = '\\' then parseRx rest acc cur post true
    else if c = '.' then parseRx rest acc' (some .dot) true false
    else if c = '*' ∨ c = '+' ∨ c = '?' then
      match cur, post with
      | some a, true =>
        let a' := if c = '*' then Rx.star a else if c = '+' then .seq a (.star a)
          else .alt a .eps
        parseRx rest acc (some a') false false
      | _, _ => none
    else if isMetaChar c then none
    else parseRx rest acc' (some (.chr c)) true false

/-- The method `RegexMatcher.Matches` (matchers.go 79-81) for the matcher compiled from
the source `src`; `none` when the source lies outside the fragment read by `parseRx`. -/
def RegexMatcher.Matches (src : String) (s : String) : Option Bool :=
  (parseRx src.data .eps none false false).map (fun r => r.search s.data)

/-- What `NewRegexMatcher(template).Matches(name)` gives. -/
def templateMatches (template name : String) : Option Bool :=
  match NewRegexMatcher template with
  | .ok src => RegexMatcher.Matches src name
  | _ => none

/-- A machine `int` (64 bits): the value of an integer after wrap-around. -/
def wrapInt (x : Int) : Int :=
  (x + 2 ^ 63) % 2 ^ 64 - 2 ^ 63

/-- The struct `RegexReplacer` of `replacers.go`; `groupVals` is kept apart, as the
argument of `RegexReplacer.Replace`. -/
structure RegexReplacer where
  parts : List String
  groups : List Int
deriving DecidableEq, Repr

/-- The inner loop of `NewRegexReplacer` (replacers.go 69-75) on the template from the
character behind the `%` on: it reads digits into `group` and stops at a character that
is no digit or at the last character of the template. -/
def scanGroup : List Char → Int → Int
  | [], group => group
  | [_], group => group
  | c :: d :: rest, group =>
    if c < '0' ∨ c > '9' then group
    else scanGroup (d :: rest) (wrapInt (group * 10 + ((c.toNat : Int) - 48)))

/-- The outer loop of `NewRegexReplacer` (replacers.go 43-77) on the template `s` with
the parts and groups collected so far; the first argument bounds the number of rounds.
The round that reads a `%N` placeholder leaves `s` as it is. -/
def replacerLoop : Nat → List Char → List String → List Int → Ended RegexReplacer
  | 0, _, _, _ => .crashed
  | fuel + 1, s, parts, groups =>
    match indexOf ['%'] s with
    | none => .ok { parts := parts ++ [⟨s⟩], groups := groups }
    | some i =>
      if s.length = i + 1 then
        .complained (.text "Error: Could not parse regex. % is not a valid combination.")
      else
        let c := s.getD (i + 1) ' '
        if c = '%' then
          replacerLoop fuel (s.drop (i + 2)) (parts ++ [⟨s.take (i + 1)⟩]) groups
        else if c.isDigit then
          replacerLoop fuel s (parts ++ [⟨s.take i⟩])
            (groups ++ [scanGroup (s.drop (i + 1)) 0])
        else .complained (.text ("Error: Could not parse regex. "
          ++ String.mk ((s.take (i + 2)).drop i) ++ " is not a valid combination."))

/-- The function `NewRegexReplacer` of `replacers.go` (39-85), run for at most `fuel`
rounds of its loop; `crashed` means that the rounds did not suffice. -/
def NewRegexReplacer (fuel : Nat) (s : String) : Ended RegexReplacer :=
  replacerLoop fuel s.data [] []

/-- The map write `r.groupVals[k] = v`. -/
def putGroupVal (vals : List (Int × String)) (k : Int) (v : String) : List (Int × String) :=
  (k, v) :: vals

/-- The loop `for i := range matches[1:]` of `RegexReplacer.Replace` (replacers.go
101-103): the group at offset `i` of `rest` is stored under `i + 1`. -/
def storeGroups : List String → Int → List (Int × String) → List (Int × String)
  | [], _, vals => vals
  | g :: rest, i, vals => storeGroups rest (i + 1) (putGroupVal vals (i + 1) g)

/-- What `fmt.Fprint(buf, r.groupVals[k])` writes: the stored text, and `<nil>` for a
key that is not in the map. -/
def printGroupVal (vals : List (Int × String)) (k : Int) : String :=
  match List.lookup k vals with
  | some v => v
  | none => "<nil>"

/-- The loop `for i := 0; i < length; i++` of `RegexReplacer.Replace` (replacers.go
105-113) from index `i` on, for `n` more rounds. -/
def fillTemplate (r : RegexReplacer) (vals : List (Int × String)) : Nat → Nat → String
  | 0, _ => ""
  | n + 1, i =>
    (match r.parts[i]? with
      | some p => p
      | none => "") ++
    (match r.groups[i]? with
      | some g => printGroupVal vals g
      | none => "") ++ fillTemplate r vals n (i + 1)

/-- The loop over the match sets of `RegexReplacer.Replace` (replacers.go 95-115), with
the map `vals`, the buffer `buf` and the rest `s` of the name; `none` is a run-time
panic (no element `matches[0]`, or the slice `s[:i]` with `i` negative). -/
def regexReplaceLoop (r : RegexReplacer) :
    List (List String) → List (Int × String) → String → String →
      Option (String × List (Int × String))
  | [], vals, buf, _ => some (buf, vals)
  | [] :: _, _, _, _ => none
  | (m :: groups) :: rest, vals, buf, s =>
    match indexOf m.data s.data with
    | none => none
    | some i =>
      let vals' := storeGroups groups 0 vals
      regexReplaceLoop r rest vals'
        (buf ++ slice s 0 i ++ fillTemplate r vals' (max r.parts.length r.groups.length) 0)
        (slice s (i + m.length) s.length)

/-- The method `RegexReplacer.Replace` of `replacers.go` (87-118). `matchSets` is the
value of `regex.FindAllStringSubmatch(s, opts.Num)` and `vals` the map `r.groupVals`
before the call; the result is the text returned and the map after the call. -/
def RegexReplacer.Replace (r : RegexReplacer) (matchSets : List (List String))
    (vals : List (Int × String)) (s : String) : Option (String × List (Int × String)) :=
  regexReplaceLoop r matchSets vals "" s

/-- Go's `(*Regexp).FindString`: the text of the leftmost match, the empty string when
there is none. -/
def Regexp.FindString (re : Regexp) (s : String) : String :=
  match re.findAllIndex s with
  | [] => ""
  | m :: _ => slice s m.1 m.2

/-- Go's `(*Regexp).MatchString`: there is a match. -/
def Regexp.MatchString (re : Regexp) (s : String) : Bool :=
  !(re.findAllIndex s).isEmpty

/-- The pattern `\A\d+` of `matchers.go`: its only match is the digit run at the start of
the subject, when there is one. -/
def numStartRegex : Regexp :=
  { findAllIndex := fun s =>
      let k := (s.data.takeWhile Char.isDigit).length
      if k = 0 then [] else [(0, k)] }

/-- The pattern `\d+\z` of `matchers.go`: its only match is the digit run at the end of the
subject, when there is one. -/
def numEndRegex : Regexp :=
  { findAllIndex := fun s =>
      let k := (s.data.reverse.takeWhile Char.isDigit).length
      if k = 0 then [] else [(s.length - k, s.length)] }

/-- The loop of Go's `filepath.Ext` over the path read backwards; `acc` is the text behind
the character read. -/
def extFrom : List Char → List Char → List Char
  | [], _ => []
  | c :: rest, acc =>
    if c = '/' then [] else if c = '.' then '.' :: acc else extFrom rest (c :: acc)

/-- Go's `filepath.Ext`: the suffix of the last path element from its last dot on. -/
def filepathExt (path : String) : String :=
  ⟨extFrom path.data.reverse []⟩

/-- Go's `strings.LastIndex` on the characters of the strings. -/
def lastIndexOf (sub s : List Char) : Option Nat :=
  (indexOf sub.reverse s.reverse).map (fun i => s.length - sub.length - i)

/-- The method `NumberMatcher.Matches` of `matchers.go` (26-36); `none` is the run-time
panic of the slice `s[:i]` for a negative `i`. -/
def NumberMatcher.Matches (n : Bool) (s : String) : Option Bool :=
  if n then some (numStartRegex.MatchString s)
  else
    let ext := filepathExt s
    if ext ≠ "" then
      match lastIndexOf ext.data s.data with
      | none => none
      | some i => some (numEndRegex.MatchString (slice s 0 i))
    else some (numEndRegex.MatchString s)

/-- The number written by a run of decimal digits. -/
def digitsValue (ds : List Char) : Nat :=
  ds.foldl (fun acc c => acc * 10 + (c.toNat - 48)) 0

/-- Go's `strconv.Atoi` for a 64-bit `int`: an optional sign and at least one decimal
digit, with a value that fits; `none` is an error. -/
def atoi (s : String) : Option Int :=
  let ds := match s.data with
    | '-' :: r => r
    | '+' :: r => r
    | cs => cs
  if ds = [] ∨ ds.all Char.isDigit = false then none
  else if s.data.head? = some '-' then
    (if digitsValue ds ≤ 2 ^ 63 then some (-(digitsValue ds : Int)) else none)
  else if digitsValue ds < 2 ^ 63 then some (digitsValue ds : Int) else none

/-- Go's `strconv.Itoa`. -/
def itoa (n : Int) : String :=
  if n < 0 then ⟨'-' :: Nat.toDigits 10 n.natAbs⟩ else ⟨Nat.toDigits 10 n.toNat⟩

/-- The padding of `NumberReplacer.Replace` (replacers.go 149-152) to the width `w`. -/
def zeroPad (w : Int) (result : String) : String :=
  if w > (result.length : Int) then
    ⟨List.replicate (w - (result.length : Int)).toNat '0'⟩ ++ result
  else result

/-- The struct `NumberReplacer` of `replacers.go`. -/
structure NumberReplacer where
  op : Int
  start : Bool
deriving DecidableEq, Repr

/-- The method `NumberReplacer.Replace` of `replacers.go` (144-159) with the pattern
`regex`; `handle(err)` ends in `complain`, and `crashed` is the run-time panic of the
slice `s[:split]` for a negative `split`. -/
def NumberReplacer.Replace (n : NumberReplacer) (opts : Opts) (s : String)
    (regex : Regexp) : Ended String :=
  let m := regex.FindString s
  match atoi m with
  | none => .complained (.atoi m)
  | some num =>
    let result := zeroPad opts.ZeroPad (itoa (wrapInt (num + n.op)))
    if n.start then .ok (stringsReplace s m result 1)
    else
      match lastIndexOf m.data s.data with
      | none => .crashed
      | some split =>
        .ok (slice s 0 split ++ result ++ slice s (split + m.length) s.length)

/-- The limit on the number of replacements that the count `Num` stands for: none when it
is negative. -/
def limitOf (n : Int) : Option Nat :=
  if n < 0 then none else some n.toNat

/-- The literal replacement as the replacer is described: the name is scanned left to
right; where `old` occurs and the limit `lim` is not used up, `new` is written instead
and the scan goes on behind the occurrence (behind the next character when `old` is
empty); every other character is kept. `skip` counts the characters of a replaced
occurrence that are still to be passed over. -/
def scanReplace (old new : List Char) : Option Nat → Nat → List Char → List Char
  | lim, _, [] => if lim ≠ some 0 ∧ old = [] then new else []
  | lim, skip + 1, _ :: cs => scanReplace old new lim skip cs
  | lim, 0, c :: cs =>
    if lim ≠ some 0 ∧ old.isPrefixOf (c :: cs) = true then
      if old = [] then new ++ c :: scanReplace old new (lim.map Nat.pred) 0 cs
      else new ++ scanReplace old new (lim.map Nat.pred) (old.length - 1) cs
    else c :: scanReplace old new lim 0 cs

/-- The elements of a path: the texts between its separators. -/
def splitSlash : List Char → List (List Char)
  | [] => [[]]
  | c :: cs =>
    if c = '/' then [] :: splitSlash cs
    else match splitSlash cs with
      | [] => [[c]]
      | e :: es => (c :: e) :: es

/-- The elements joined by separators. -/
def joinSlash : List (List Char) → List Char
  | [] => []
  | [e] => e
  | e :: es => e ++ '/' :: joinSlash es

/-- The element `..`. -/
def dotdot : List Char := ['.', '.']

/-- One round of the loop of Go's `filepath.Clean`, which reads the next element `e` of
the path: an empty element and `.` are dropped; `..` removes the element written last
when there is one that is not `..` itself, is dropped at the root, and is written
otherwise; any other element is written. `out` holds the elements written so far. -/
def cleanStep (rooted : Bool) (out : List (List Char)) (e : List Char) : List (List Char) :=
  if e = [] ∨ e = ['.'] then out
  else if e = dotdot then
    match out.getLast? with
    | some top => if top = dotdot then out ++ [e] else out.dropLast
    | none => if rooted then out else out ++ [e]
  else out ++ [e]

/-- The text for the elements written by `filepath.Clean`: `/` in front for a rooted
path, and `.` when nothing was written. -/
def renderPath (rooted : Bool) (out : List (List Char)) : List Char :=
  if rooted then '/' :: joinSlash out
  else if out = [] then ['.'] else joinSlash out

/-- Go's `filepath.Clean` for slash-separated paths, read element by element. -/
def cleanPath (p : List Char) : List Char :=
  if p = [] then ['.']
  else
    let rooted := decide (p.head? = some '/')
    renderPath rooted ((splitSlash p).foldl (cleanStep rooted) [])

/-- Go's `filepath.Clean`. -/
def filepathClean (path : String) : String :=
  ⟨cleanPath path.data⟩

/-- Go's `filepath.Join` of two elements: empty elements in front are ignored, the rest
is joined by separators and cleaned. -/
def filepathJoin (a b : String) : String :=
  if a ≠ "" then ⟨cleanPath (a.data ++ '/' :: b.data)⟩
  else if b ≠ "" then ⟨cleanPath b.data⟩
  else ""

/-- The path up to and with its last separator. -/
def dirPart (p : List Char) : List Char :=
  (p.reverse.dropWhile (fun c => c ≠ '/')).reverse

/-- Go's `filepath.Dir`: the path without its last element, cleaned. -/
def filepathDir (path : String) : String :=
  ⟨cleanPath (dirPart path.data)⟩

/-- Go's `filepath.Base`: the last element of the path, trailing separators aside. -/
def filepathBase (path : String) : String :=
  if path = "" then "."
  else
    let p := (path.data.reverse.dropWhile (fun c => c = '/')).reverse
    let e := (p.reverse.takeWhile (fun c => c ≠ '/')).reverse
    if e = [] then "/" else ⟨e⟩

/-- The candidate that the scanner records for the file at `path` when the replacer
returns `newName` (new.go 155-159). -/
def recordMatch (path newName : String) : File :=
  { From := path, To := filepathJoin (filepathDir path) newName, done := false }

/-- A name that is one path element: not empty, without separator, neither `.` nor `..`. -/
def PlainName (x : List Char) : Prop :=
  x ≠ [] ∧ '/' ∉ x ∧ x ≠ ['.'] ∧ x ≠ dotdot

/-- The shape of what `filepath.Clean` has written: every element is non-empty, without
separator and not `.`, and an element `..` occurs only in an unrooted path with nothing
but `..` before it. -/
def Canon (rooted : Bool) (out : List (List Char)) : Prop :=
  (∀ e ∈ out, e ≠ [] ∧ '/' ∉ e ∧ e ≠ ['.']) ∧
  (∀ pre e post, out = pre ++ e :: post → e = dotdot →
    rooted = false ∧ ∀ y ∈ pre, y = dotdot)

/-! ## Properties -/

theorem forall_getElem?_cons {α : Type} (x : α) (l : List α) (P : Nat → α → Prop) :
    (∀ t b, (x :: l)[t]? = some b → P t b) ↔
      P 0 x ∧ ∀ t b, l[t]? = some b → P (t + 1) b := by
  constructor
  · intro h
    exact ⟨h 0 x (by simp), fun t b hb => h (t + 1) b (by simpa using hb)⟩
  · rintro ⟨h0, hs⟩ t b hb
    cases t with
    | zero => simp at hb; subst hb; exact h0
    | succ t => exact hs t b (by simpa using hb)

theorem exists_getElem?_cons {α : Type} (x : α) (l : List α) (P : Nat → α → Prop) :
    (∃ t b, (x :: l)[t]? = some b ∧ P t b) ↔
      P 0 x ∨ ∃ t b, l[t]? = some b ∧ P (t + 1) b := by
  constructor
  · rintro ⟨t, b, hb, hP⟩
    cases t with
    | zero => simp at hb; subst hb; exact Or.inl hP
    | succ t => exact Or.inr ⟨t, b, by simpa using hb, hP⟩
  · rintro (h0 | ⟨t, b, hb, hP⟩)
    · exact ⟨0, x, by simp, h0⟩
    · exact ⟨t + 1, b, by simpa using hb, hP⟩

/-- What the inner loop computes: it complains exactly on a shared destination or a swap
with another candidate, and otherwise leaves `exists` set exactly when it was set and no
other candidate starts at the destination. -/
theorem checkOthers_ok_iff (m : File) (mi : Nat) (l : List File) (oi : Nat) (ex r : Bool) :
    checkOthers m mi l oi ex = .ok r ↔
      (∀ t b, l[t]? = some b → oi + t ≠ mi →
        b.To ≠ m.To ∧ ¬ (b.To = m.From ∧ m.To = b.From)) ∧
      (r = true ↔ ex = true ∧ ¬ ∃ t b, l[t]? = some b ∧ oi + t ≠ mi ∧ b.From = m.To) := by
  induction l generalizing oi ex with
  | nil => cases ex <;> cases r <;> simp [checkOthers]
  | cons other rest ih =>
    rw [forall_getElem?_cons, exists_getElem?_cons]
    simp only [checkOthers, Nat.add_zero]
    have ih := fun ex => ih (oi + 1) ex
    simp only [Nat.add_assoc, Nat.add_comm 1] at ih
    by_cases h1 : oi = mi
    · subst h1
      rw [if_pos rfl, ih]
      simp
    · rw [if_neg h1]
      by_cases h2 : other.To = m.To
      · simp [h2, h1]
      · rw [if_neg h2]
        by_cases h3 : other.To = m.From ∧ m.To = other.From
        · rw [if_pos h3]
          simp only [false_iff, reduceCtorEq]
          intro hh
          exact (hh.1.1 h1).2 h3
        · rw [if_neg h3]
          by_cases h4 : ex = true ∧ other.From = m.To
          · rw [if_pos h4, ih]
            have h3' : ¬ other.To = m.From := fun h => h3 ⟨h, h4.2.symm⟩
            simp [h1, h2, h3', h4]
          · rw [if_neg h4, ih]
            have h5 : ¬ (oi ≠ mi ∧ other.From = m.To) ∨ ex = false := by
              by_cases hex : ex = true
              · left; intro hh; exact h4 ⟨hex, hh.2⟩
              · right; simpa using hex
            rcases h5 with h5 | h5
            · simp only [h5, false_or]
              simp [h1, h2, h3]
            · simp [h5, h1, h2, h3]

theorem validateLoop_ok_iff (stat : String → Bool) (all l : List File) (mi : Nat)
    (acc others : Others) :
    validateLoop stat all l mi acc = .ok others ↔
      (∀ t m, l[t]? = some m → checkOthers m (mi + t) all 0 (stat m.To) = .ok false) ∧
      others = othersOf l mi acc := by
  induction l generalizing mi acc with
  | nil => simp [validateLoop, othersOf, eq_comm]
  | cons m rest ih =>
    rw [forall_getElem?_cons]
    have ih := fun acc => ih (mi + 1) acc
    simp only [Nat.add_assoc, Nat.add_comm 1] at ih
    simp only [validateLoop, othersOf, Nat.add_zero]
    cases hc : checkOthers m mi all 0 (stat m.To) with
    | error c => simp
    | ok b =>
      cases b with
      | true => simp
      | false => simp [ih]

theorem othersOf_get_of_not_mem (l : List File) (mi : Nat) (acc : Others) (k : String)
    (hk : k ∉ l.map File.From) : (othersOf l mi acc).get k = acc.get k := by
  induction l generalizing mi acc with
  | nil => rfl
  | cons m rest ih =>
    simp only [List.map_cons, List.mem_cons, not_or] at hk
    rw [othersOf, ih _ _ hk.2]
    simp only [Others.get, Others.put, List.lookup_cons]
    have : (k == m.From) = false := by simpa using hk.1
    rw [this]

theorem othersOf_get_some (l : List File) (mi : Nat) (acc : Others) (k : String) (j : Nat)
    (h : (othersOf l mi acc).get k = some j) :
    (∃ t m, l[t]? = some m ∧ m.From = k ∧ j = mi + t) ∨ acc.get k = some j := by
  induction l generalizing mi acc with
  | nil => exact Or.inr h
  | cons x rest ih =>
    rw [othersOf] at h
    rcases ih _ _ h with ⟨t, m, hm, hk, hj⟩ | h'
    · exact Or.inl ⟨t + 1, m, by simpa using hm, hk, by omega⟩
    · simp only [Others.get, Others.put, List.lookup_cons] at h'
      by_cases hx : k = x.From
      · subst hx
        simp at h'
        exact Or.inl ⟨0, x, by simp, rfl, by omega⟩
      · have : (k == x.From) = false := by simpa using hx
        rw [this] at h'
        exact Or.inr h'

theorem othersOf_get_of_nodup (l : List File) (mi : Nat) (acc : Others) (t : Nat) (m : File)
    (hnd : (l.map File.From).Nodup) (hm : l[t]? = some m) :
    (othersOf l mi acc).get m.From = some (mi + t) := by
  induction l generalizing mi acc t with
  | nil => simp at hm
  | cons x rest ih =>
    simp only [List.map_cons, List.nodup_cons] at hnd
    cases t with
    | zero =>
      simp at hm
      subst hm
      rw [othersOf, othersOf_get_of_not_mem _ _ _ _ hnd.1]
      simp [Others.get, Others.put, List.lookup_cons]
    | succ t =>
      rw [othersOf, ih _ _ t hnd.2 (by simpa using hm)]
      congr 1
      omega

/-- Validation succeeds exactly when no two candidates share a destination, no two form a
swap, and no destination is an existing path that no other candidate starts from; the map
it yields is `othersOf`. -/
theorem validate_ok_iff (stat : String → Bool) (cs : List File) (others : Others) :
    validate stat cs = .ok others ↔
      (¬ DupTo cs ∧ ¬ SwapPair cs ∧ ¬ Blocked stat cs) ∧ others = othersOf cs 0 [] := by
  rw [validate, validateLoop_ok_iff]
  apply and_congr_left
  intro _
  simp only [checkOthers_ok_iff, Nat.zero_add]
  constructor
  · intro h
    refine ⟨?_, ?_, ?_⟩
    · rintro ⟨i, j, a, b, hij, ha, hb, hab⟩
      exact ((h j b hb).1 i a ha hij).1 hab
    · rintro ⟨i, j, a, b, hij, ha, hb, hab, hba⟩
      exact ((h i a ha).1 j b hb (Ne.symm hij)).2 ⟨hba, hab⟩
    · rintro ⟨i, a, ha, hst, hno⟩
      have := (h i a ha).2
      simp only [Bool.false_eq_true, false_iff, not_and, not_not] at this
      obtain ⟨j, b, hb, hji, hbf⟩ := this hst
      exact hno ⟨j, b, hji, hb, hbf⟩
  · rintro ⟨hd, hs, hb⟩ i a ha
    refine ⟨fun j b hbj hji => ⟨?_, ?_⟩, ?_⟩
    · intro hto
      exact hd ⟨j, i, b, a, hji, hbj, ha, hto⟩
    · rintro ⟨h1, h2⟩
      exact hs ⟨i, j, a, b, Ne.symm hji, ha, hbj, h2, h1⟩
    · simp only [Bool.false_eq_true, false_iff, not_and, not_not]
      intro hst
      by_contra hno
      exact hb ⟨i, a, ha, hst, fun ⟨j, b, hji, hbj, hbf⟩ => hno ⟨j, b, hbj, hji, hbf⟩⟩

/-- Validation complains exactly on a shared destination, a swap, or a blocked destination. -/
theorem validate_error_iff (stat : String → Bool) (cs : List File) :
    (∃ c, validate stat cs = .error c) ↔ DupTo cs ∨ SwapPair cs ∨ Blocked stat cs := by
  have h := validate_ok_iff stat cs
  cases hv : validate stat cs with
  | error c =>
    simp only [hv, reduceCtorEq, false_iff, not_and] at h
    have h' := h (othersOf cs 0 [])
    simp only [not_true_eq_false, imp_false] at h'
    constructor
    · intro _
      by_contra hcon
      simp only [not_or] at hcon
      exact h' hcon
    · intro _
      exact ⟨c, rfl⟩
  | ok o =>
    have h' := (h o).1 hv
    simp only [reduceCtorEq, exists_false, false_iff, not_or]
    exact h'.1

theorem replay_append (osRename : List String → String → String → Option (List String))
    (fs : List String) (l₁ l₂ : List (String × String)) :
    replay osRename fs (l₁ ++ l₂) = replay osRename (replay osRename fs l₁) l₂ := by
  induction l₁ generalizing fs with
  | nil => rfl
  | cons x rest ih =>
    obtain ⟨a, b⟩ := x
    exact ih _

theorem performRename_eq (opts : Opts)
    (osRename : List String → String → String → Option (List String))
    (f : Nat) (w1 : World) (file1 : File) (hf : w1.files[f]? = some file1)
    (hd : file1.done = false) :
    performRename opts osRename f w1 =
      { files := w1.files.set f { file1 with done := true }
        fs := if opts.Testing then w1.fs
          else (osRename w1.fs file1.From file1.To).getD w1.fs
        calls := if opts.Testing then w1.calls else w1.calls ++ [(file1.From, file1.To)]
        out := if opts.Testing ∨ opts.Verbose then w1.out ++ [renameLine file1]
          else w1.out } := by
  obtain ⟨r, v, t, z, n⟩ := opts
  simp only [performRename, hf, hd]
  cases t <;> cases v <;> simp

theorem performRename_done (opts : Opts)
    (osRename : List String → String → String → Option (List String))
    (f : Nat) (w1 : World) (file1 : File) (hf : w1.files[f]? = some file1)
    (hd : file1.done = true) :
    performRename opts osRename f w1 = w1 := by
  simp [performRename, hf, hd]

theorem renameLine_congr (a b : File) (h1 : a.From = b.From) (h2 : a.To = b.To) :
    renameLine a = renameLine b := by
  simp [renameLine, h1, h2]

/-- Marking a candidate all of whose successors are done keeps the invariant. -/
theorem Sched.step {opts : Opts}
    {osRename : List String → String → String → Option (List String)}
    {fs0 : List String} {cs : List File} {w : World} {ord : List Nat}
    (hS : Sched opts osRename fs0 cs w ord) (j : Nat) (c : File) (hc : cs[j]? = some c)
    (hj : j ∉ ord) (hsucc : ∀ k, Linked cs j k → k ∈ ord) :
    Sched opts osRename fs0 cs (performRename opts osRename j w) (ord ++ [j]) := by
  have hjlt : j < w.files.length := by
    rw [hS.len]
    exact (List.getElem?_eq_some_iff.1 hc).1
  obtain ⟨file1, hf1⟩ : ∃ f, w.files[j]? = some f :=
    ⟨w.files[j], List.getElem?_eq_getElem hjlt⟩
  have hd1 : file1.done = false := by
    by_contra hcon
    exact hj ((hS.done_iff j).2 ⟨file1, hf1, by simpa using hcon⟩)
  obtain ⟨c', hc', hFrom, hTo⟩ := hS.same j file1 hf1
  have hcc : c' = c := by
    rw [hc] at hc'
    exact (Option.some.inj hc').symm
  subst hcc
  rw [performRename_eq opts osRename j w file1 hf1 hd1]
  refine ⟨?_, ?_, ?_, ?_, ?_, ?_, ?_, ?_, ?_⟩
  · simp [hS.len]
  · intro i f hi
    by_cases hij : j = i
    · subst hij
      simp only [List.getElem?_set_self hjlt, Option.some.injEq] at hi
      subst hi
      exact ⟨c', hc', hFrom, hTo⟩
    · simp only [List.getElem?_set_ne hij] at hi
      exact hS.same i f hi
  · intro i
    by_cases hij : j = i
    · subst hij
      simp [List.getElem?_set_self hjlt]
    · simp only [List.mem_append, List.mem_singleton, List.getElem?_set_ne hij]
      rw [hS.done_iff i]
      constructor
      · rintro (h | h)
        · exact h
        · exact absurd h.symm hij
      · intro h
        exact Or.inl h
  · rw [List.nodup_append]
    refine ⟨hS.nodup, List.nodup_singleton j, ?_⟩
    intro a ha hb
    simp only [List.mem_singleton] at hb
    subst hb
    exact hj ha
  · intro i k hi hl
    simp only [List.mem_append, List.mem_singleton] at hi ⊢
    rcases hi with hi | hi
    · exact Or.inl (hS.closed i k hi hl)
    · subst hi
      exact Or.inl (hsucc k hl)
  · rw [List.pairwise_append]
    refine ⟨hS.before, List.pairwise_singleton _ _, ?_⟩
    intro a ha b hb hl
    simp only [List.mem_singleton] at hb
    subst hb
    exact hj (hS.closed a b ha hl)
  · simp only [hS.calls]
    split
    · rfl
    · simp [List.filterMap_append, hc', File.pair, hFrom, hTo]
  · simp only [hS.out]
    split
    · simp [List.filterMap_append, hc', renameLine_congr file1 c' hFrom hTo]
    · rfl
  · simp only
    split
    · exact hS.fs
    · rw [replay_append, ← hS.fs]
      rfl

theorem length_le_of_nodup_lt (q : List Nat) (n : Nat) (hnd : q.Nodup)
    (hb : ∀ i ∈ q, i < n) : q.length ≤ n := by
  have h := (List.subperm_of_subset hnd (fun i hi => List.mem_range.2 (hb i hi))).length_le
  simpa using h

/-- A chain whose last candidate renames onto the start of one of its members contains a
rename cycle. -/
theorem cycle_of_mem {cs : List File} (hirr : ∀ i, ¬ Linked cs i i) (q : List Nat)
    (j k : Nat) (hlast : q.getLast? = some j) (hnd : q.Nodup)
    (hch : List.Chain' (Linked cs) q) (hl : Linked cs j k) (hk : k ∈ q) :
    ∃ cyc, RenameCycle cs cyc := by
  obtain ⟨s, t, rfl⟩ := List.append_of_mem hk
  have hlast' : (k :: t).getLast? = some j := by
    rw [List.getLast?_append_of_ne_nil _ (List.cons_ne_nil k t)] at hlast
    exact hlast
  cases t with
  | nil =>
    simp only [List.getLast?_singleton, Option.some.injEq] at hlast'
    subst hlast'
    exact absurd hl (hirr _)
  | cons x t =>
    refine ⟨k :: x :: t, ?_, hnd.of_append_right, hch.right_of_append, j, k, hlast', rfl, hl⟩
    simp

/-- The recursion of `Rename` along a chain `q` of pending candidates ending in `j`:
with a budget of `cs.length + 2 - q.length` the call returns, `j` is done afterwards, the
invariant holds and the other members of the chain are still pending. -/
theorem Rename_returns {opts : Opts}
    {osRename : List String → String → String → Option (List String)}
    {fs0 : List String} {cs : List File} {others : Others} (hSet : Setup cs others) :
    ∀ (fuel : Nat) (q : List Nat) (j : Nat) (w : World) (ord : List Nat),
      Sched opts osRename fs0 cs w ord → q.getLast? = some j → q.Nodup →
      List.Chain' (Linked cs) q → (∀ i ∈ q, i < cs.length) →
      (∀ i ∈ q, i ≠ j → i ∉ ord) → cs.length + 2 ≤ fuel + q.length →
      ∃ w' ord', Rename opts osRename others fuel j w = .returned w' ∧
        Sched opts osRename fs0 cs w' ord' ∧ j ∈ ord' ∧ (∀ i ∈ ord, i ∈ ord') ∧
        (∀ i ∈ q, i ≠ j → i ∉ ord') := by
  intro fuel
  induction fuel with
  | zero =>
    intro q j w ord _ _ hnd _ hb _ hfuel
    have := length_le_of_nodup_lt q cs.length hnd hb
    omega
  | succ fuel ih =>
    intro q j w ord hS hlast hnd hch hb hpend hfuel
    have hjq : j ∈ q := List.mem_of_getLast?_eq_some hlast
    have hjlt : j < cs.length := hb j hjq
    have hjlt' : j < w.files.length := by rw [hS.len]; exact hjlt
    have hf : w.files[j]? = some w.files[j] := List.getElem?_eq_getElem hjlt'
    obtain ⟨c, hc, hFrom, hTo⟩ := hS.same j _ hf
    rw [Rename, hf]
    simp only
    by_cases hdone : (w.files[j]).done = true
    · rw [if_pos hdone]
      exact ⟨w, ord, rfl, hS, (hS.done_iff j).2 ⟨_, hf, hdone⟩, fun i hi => hi, hpend⟩
    · rw [if_neg hdone]
      have hjord : j ∉ ord := by
        intro hmem
        obtain ⟨f, hf', hd'⟩ := (hS.done_iff j).1 hmem
        rw [hf] at hf'
        exact hdone (by rw [Option.some.inj hf']; exact hd')
      cases hg : others.get (w.files[j]).To with
      | none =>
        simp only
        have hsucc : ∀ k, Linked cs j k → k ∈ ord := by
          rintro k ⟨a, b, ha, hb', hab⟩
          rw [hc] at ha
          have hac : c = a := Option.some.inj ha
          have := hSet.get_of k b hb'
          rw [← hab, ← hac, ← hTo, hg] at this
          exact absurd this (by simp)
        refine ⟨_, ord ++ [j], rfl, hS.step j c hc hjord hsucc, by simp, ?_, ?_⟩
        · intro i hi
          exact List.mem_append_left _ hi
        · intro i hi hij hmem
          simp only [List.mem_append, List.mem_singleton] at hmem
          rcases hmem with h | h
          · exact hpend i hi hij h
          · exact hij h
      | some k =>
        simp only
        obtain ⟨ck, hck, hckF⟩ := hSet.get_some _ _ hg
        have hlink : Linked cs j k := ⟨c, ck, hc, hck, by rw [← hTo, hckF]⟩
        have hkq : k ∉ q := by
          intro hk
          obtain ⟨cyc, hcyc⟩ := cycle_of_mem hSet.irrefl q j k hlast hnd hch hlink hk
          exact hSet.acyclic cyc hcyc
        have hklt : k < cs.length := (List.getElem?_eq_some_iff.1 hck).1
        have hq'last : (q ++ [k]).getLast? = some k := by simp
        have hq'nd : (q ++ [k]).Nodup := by
          rw [List.nodup_append]
          refine ⟨hnd, List.nodup_singleton k, ?_⟩
          intro a ha hak
          simp only [List.mem_singleton] at hak
          subst hak
          exact hkq ha
        have hq'ch : List.Chain' (Linked cs) (q ++ [k]) := by
          refine List.Chain'.append hch (List.chain'_singleton k) ?_
          intro x hx y hy
          rw [hlast] at hx
          simp only [Option.mem_def, Option.some.injEq] at hx
          simp only [List.head?_cons, Option.mem_def, Option.some.injEq] at hy
          subst hx
          subst hy
          exact hlink
        have hq'b : ∀ i ∈ q ++ [k], i < cs.length := by
          intro i hi
          simp only [List.mem_append, List.mem_singleton] at hi
          rcases hi with h | h
          · exact hb i h
          · rw [h]; exact hklt
        have hq'pend : ∀ i ∈ q ++ [k], i ≠ k → i ∉ ord := by
          intro i hi hik
          simp only [List.mem_append, List.mem_singleton] at hi
          rcases hi with h | h
          · by_cases hij : i = j
            · rw [hij]; exact hjord
            · exact hpend i h hij
          · exact absurd h hik
        have hfuel' : cs.length + 2 ≤ fuel + (q ++ [k]).length := by
          simp only [List.length_append, List.length_singleton]
          omega
        obtain ⟨w1, ord1, hret, hS1, hk1, hsub1, hpend1⟩ :=
          ih (q ++ [k]) k w ord hS hq'last hq'nd hq'ch hq'b hq'pend hfuel'
        rw [hret]
        simp only
        have hjk : j ≠ k := fun h => hkq (h ▸ hjq)
        have hjord1 : j ∉ ord1 := hpend1 j (List.mem_append_left _ hjq) hjk
        have hsucc : ∀ k', Linked cs j k' → k' ∈ ord1 := by
          rintro k' ⟨a, b, ha, hb', hab⟩
          rw [hc] at ha
          have hac : c = a := Option.some.inj ha
          have := hSet.get_of k' b hb'
          rw [← hab, ← hac, ← hTo, hg] at this
          rw [← Option.some.inj this]
          exact hk1
        refine ⟨_, ord1 ++ [j], rfl, hS1.step j c hc hjord1 hsucc, by simp, ?_, ?_⟩
        · intro i hi
          exact List.mem_append_left _ (hsub1 i hi)
        · intro i hi hij hmem
          simp only [List.mem_append, List.mem_singleton] at hmem
          rcases hmem with h | h
          · have hik : i ≠ k := fun h' => hkq (h' ▸ hi)
            exact hpend1 i (List.mem_append_left _ hi) hik h
          · exact hij h

/-- The loop over the candidates returns with every candidate of the loop done. -/
theorem renameAll_returns {opts : Opts}
    {osRename : List String → String → String → Option (List String)}
    {fs0 : List String} {cs : List File} {others : Others} (hSet : Setup cs others)
    (fuel : Nat) (hfuel : cs.length + 1 ≤ fuel) :
    ∀ (l : List Nat) (w : World) (ord : List Nat),
      Sched opts osRename fs0 cs w ord → (∀ i ∈ l, i < cs.length) →
      ∃ w' ord', renameAll opts osRename others fuel l w = .returned w' ∧
        Sched opts osRename fs0 cs w' ord' ∧ (∀ i ∈ l, i ∈ ord') ∧ (∀ i ∈ ord, i ∈ ord') := by
  intro l
  induction l with
  | nil =>
    intro w ord hS _
    exact ⟨w, ord, rfl, hS, by simp, fun i hi => hi⟩
  | cons j rest ih =>
    intro w ord hS hb
    obtain ⟨w1, ord1, hret, hS1, hj1, hsub1, _⟩ :=
      Rename_returns hSet fuel [j] j w ord hS rfl (List.nodup_singleton j)
        (List.chain'_singleton j) (by simpa using hb j (List.mem_cons_self j rest))
        (by simp) (by simp; omega)
    obtain ⟨w2, ord2, hret2, hS2, hall2, hsub2⟩ :=
      ih w1 ord1 hS1 (fun i hi => hb i (List.mem_cons_of_mem j hi))
    refine ⟨w2, ord2, ?_, hS2, ?_, fun i hi => hsub2 i (hsub1 i hi)⟩
    · rw [renameAll, hret]
      exact hret2
    · intro i hi
      simp only [List.mem_cons] at hi
      rcases hi with h | h
      · rw [h]; exact hsub2 j hj1
      · exact hall2 i h

/-- The invariant holds before the first call, when no candidate is marked. -/
theorem Sched.init (opts : Opts)
    (osRename : List String → String → String → Option (List String))
    (fs0 : List String) (cs : List File) (hfresh : ∀ c ∈ cs, c.done = false) :
    Sched opts osRename fs0 cs (initWorld fs0 cs) [] := by
  refine ⟨rfl, ?_, ?_, List.nodup_nil, ?_, List.Pairwise.nil, ?_, ?_, rfl⟩
  · intro i f hf
    exact ⟨f, hf, rfl, rfl⟩
  · intro i
    simp only [List.not_mem_nil, initWorld, false_iff, not_exists, not_and]
    intro f hf
    have := hfresh f (List.getElem?_mem hf)
    simp [this]
  · intro i k hi
    simp at hi
  · simp [initWorld]
  · simp [initWorld]

/-- Candidates with distinct `From` paths are told apart by them. -/
theorem index_eq_of_From_eq {cs : List File} (hnd : (cs.map File.From).Nodup)
    {i j : Nat} {a b : File} (ha : cs[i]? = some a) (hb : cs[j]? = some b)
    (hab : a.From = b.From) : i = j := by
  have h1 := othersOf_get_of_nodup cs 0 [] i a hnd ha
  have h2 := othersOf_get_of_nodup cs 0 [] j b hnd hb
  rw [hab, h2] at h1
  simpa using h1.symm

/-- A validated list of candidates with distinct sources, all present on disk, and no
rename cycle meets the requirements of the execution phase. -/
theorem Setup.of_validate {fs : List String} {cs : List File} {others : Others}
    (hv : validate (fun p => decide (p ∈ fs)) cs = .ok others)
    (hnd : (cs.map File.From).Nodup) (hfs : ∀ c ∈ cs, c.From ∈ fs)
    (hnc : ∀ cyc, ¬ RenameCycle cs cyc) : Setup cs others := by
  obtain ⟨⟨_, _, hbl⟩, rfl⟩ := (validate_ok_iff _ cs others).1 hv
  refine ⟨?_, ?_, hnc, ?_⟩
  · intro k j hg
    rcases othersOf_get_some cs 0 [] k j hg with ⟨t, m, hm, hk, hj⟩ | h
    · refine ⟨m, ?_, hk⟩
      rw [hj, Nat.zero_add]
      exact hm
    · simp [Others.get] at h
  · intro j c hc
    have := othersOf_get_of_nodup cs 0 [] j c hnd hc
    simpa using this
  · rintro i ⟨a, b, ha, hb, hab⟩
    rw [ha] at hb
    have hba : a = b := Option.some.inj hb
    subst hba
    apply hbl
    refine ⟨i, a, ha, ?_, ?_⟩
    · rw [hab]
      simpa using hfs a (List.getElem?_mem ha)
    · rintro ⟨j, b, hji, hb, hbf⟩
      exact hji (index_eq_of_From_eq hnd hb ha (hbf.trans hab))

theorem filterMap_range_getElem? {α β : Type} (g : α → β) (cs : List α) :
    (List.range cs.length).filterMap (fun i => cs[i]?.map g) = cs.map g := by
  induction cs using List.reverseRecOn with
  | nil => rfl
  | append_singleton l x ih =>
    rw [List.length_append, List.length_singleton, List.range_succ, List.filterMap_append,
      List.map_append]
    congr 1
    · rw [← ih]
      apply List.filterMap_congr
      intro i hi
      rw [List.getElem?_append_left (List.mem_range.1 hi)]
    · simp

/-- The execution phase on a list that meets its requirements: it returns, the invariant
holds at the end and every candidate has been marked. -/
theorem execute_returns (opts : Opts)
    (osRename : List String → String → String → Option (List String))
    (fs : List String) {cs : List File} {others : Others} (hSet : Setup cs others)
    (hfresh : ∀ c ∈ cs, c.done = false) (fuel : Nat) (hfuel : cs.length + 1 ≤ fuel) :
    ∃ w ord, execute opts osRename fs cs others fuel = .returned w ∧
      Sched opts osRename fs cs w ord ∧ ord.Perm (List.range cs.length) := by
  obtain ⟨w, ord, hret, hS, hall, _⟩ :=
    renameAll_returns hSet fuel hfuel (List.range cs.length) (initWorld fs cs) []
      (Sched.init opts osRename fs cs hfresh) (fun i hi => List.mem_range.1 hi)
  refine ⟨w, ord, hret, hS, ?_⟩
  rw [List.perm_ext_iff_of_nodup hS.nodup (List.nodup_range _)]
  intro i
  constructor
  · intro hi
    obtain ⟨f, hf, _⟩ := (hS.done_iff i).1 hi
    rw [List.mem_range, ← hS.len]
    exact (List.getElem?_eq_some_iff.1 hf).1
  · exact hall i

theorem mem_setRename (fs : List String) (src dst p : String) (h : src ∈ fs) :
    p ∈ (setRename fs src dst).getD fs ↔ p = dst ∨ (p ∈ fs ∧ p ≠ src) := by
  simp [setRename, h]

/-- Renames issued in an order in which no candidate precedes one that starts at its
destination never hit an existing path: `pre` has been renamed already, `rest` follows. -/
theorem collisionFree_of_order {fs0 : List String} {cs : List File}
    (hnd : (cs.map File.From).Nodup) (hfs : ∀ c ∈ cs, c.From ∈ fs0)
    (hdup : ¬ DupTo cs) (hbl : ¬ Blocked (fun p => decide (p ∈ fs0)) cs) :
    ∀ (rest pre : List Nat) (fs : List String),
      (pre ++ rest).Nodup → (pre ++ rest).Pairwise (fun a b => ¬ Linked cs a b) →
      (∀ i, i < cs.length → i ∈ pre ++ rest) → (∀ i ∈ rest, i < cs.length) →
      (∀ p, p ∈ fs ↔ ToIn cs pre p ∨ (p ∈ fs0 ∧ ¬ FromIn cs pre p)) →
      collisionFree setRename fs (rest.filterMap (fun i => cs[i]?.map File.pair)) := by
  intro rest
  induction rest with
  | nil => intro _ _ _ _ _ _ _; trivial
  | cons i rest ih =>
    intro pre fs hnodup hpw hall hlt hchar
    have hilt : i < cs.length := hlt i (List.mem_cons_self i rest)
    have hc : cs[i]? = some cs[i] := List.getElem?_eq_getElem hilt
    generalize cs[i] = c at hc
    have hipre : i ∉ pre := by
      intro h
      exact (List.nodup_append.1 hnodup).2.2 h (List.mem_cons_self i rest)
    have hsrc : c.From ∈ fs := by
      rw [hchar]
      refine Or.inr ⟨hfs c (List.getElem?_mem hc), ?_⟩
      rintro ⟨i', c', hi', hc', hFrom⟩
      have := index_eq_of_From_eq hnd hc' hc hFrom
      exact hipre (this ▸ hi')
    have hdst : c.To ∉ fs := by
      rw [hchar]
      rintro (⟨i', c', hi', hc', hTo⟩ | ⟨hin, hnot⟩)
      · exact hdup ⟨i', i, c', c, fun h => hipre (h ▸ hi'), hc', hc, hTo⟩
      · have hex : ∃ (j : Nat) (b : File), j ≠ i ∧ cs[j]? = some b ∧ b.From = c.To := by
          by_contra hno
          exact hbl ⟨i, c, hc, by simpa using hin, hno⟩
        obtain ⟨j, b, hji, hb, hbF⟩ := hex
        have hjall := hall j (List.getElem?_eq_some_iff.1 hb).1
        simp only [List.mem_append, List.mem_cons] at hjall
        rcases hjall with h | h | h
        · exact hnot ⟨j, b, h, hb, hbF⟩
        · exact hji h
        · have hp := (List.pairwise_append.1 hpw).2.1
          exact (List.pairwise_cons.1 hp).1 j h ⟨c, b, hc, hb, hbF.symm⟩
    simp only [List.filterMap_cons, hc, Option.map_some', File.pair]
    refine ⟨hdst, ?_⟩
    have happ : pre ++ [i] ++ rest = pre ++ i :: rest := by simp
    apply ih (pre ++ [i])
    · rw [happ]; exact hnodup
    · rw [happ]; exact hpw
    · rw [happ]; exact hall
    · intro k hk
      exact hlt k (List.mem_cons_of_mem i hk)
    · intro p
      rw [mem_setRename fs c.From c.To p hsrc, hchar]
      constructor
      · rintro (h | ⟨h | ⟨hin, hnot⟩, hne⟩)
        · exact Or.inl ⟨i, c, by simp, hc, h.symm⟩
        · obtain ⟨i', c', hi', hc', hTo⟩ := h
          exact Or.inl ⟨i', c', List.mem_append_left _ hi', hc', hTo⟩
        · refine Or.inr ⟨hin, ?_⟩
          rintro ⟨i', c', hi', hc', hFrom⟩
          simp only [List.mem_append, List.mem_singleton] at hi'
          rcases hi' with h | h
          · exact hnot ⟨i', c', h, hc', hFrom⟩
          · subst h
            rw [hc] at hc'
            rw [← Option.some.inj hc'] at hFrom
            exact hne hFrom.symm
      · rintro (⟨i', c', hi', hc', hTo⟩ | ⟨hin, hnot⟩)
        · simp only [List.mem_append, List.mem_singleton] at hi'
          rcases hi' with h | h
          · by_cases hp : p = c.To
            · exact Or.inl hp
            · refine Or.inr ⟨Or.inl ⟨i', c', h, hc', hTo⟩, ?_⟩
              intro hpf
              have hlink : Linked cs i' i := ⟨c', c, hc', hc, by rw [hTo, hpf]⟩
              have hp1 := (List.pairwise_append.1 hpw).2.2 i' h i (List.mem_cons_self i rest)
              exact hp1 hlink
          · subst h
            rw [hc] at hc'
            rw [← Option.some.inj hc'] at hTo
            exact Or.inl hTo.symm
        · by_cases hp : p = c.To
          · exact Or.inl hp
          · refine Or.inr ⟨Or.inr ⟨hin, ?_⟩, ?_⟩
            · rintro ⟨i', c', hi', hc', hFrom⟩
              exact hnot ⟨i', c', List.mem_append_left _ hi', hc', hFrom⟩
            · intro hpf
              exact hnot ⟨i, c, by simp, hc, hpf.symm⟩

/-- A validated, cycle-free list of fresh candidates is processed to the end; the final
world satisfies the scheduler's invariant for an order `ord` that lists every candidate. -/
theorem processMatches_finishes (opts : Opts)
    (osRename : List String → String → String → Option (List String))
    {fs : List String} {cs : List File} {others : Others}
    (hfresh : ∀ c ∈ cs, c.done = false)
    (hv : validate (fun p => decide (p ∈ fs)) cs = .ok others)
    (hnd : (cs.map File.From).Nodup) (hfs : ∀ c ∈ cs, c.From ∈ fs)
    (hnc : ∀ cyc, ¬ RenameCycle cs cyc) (fuel : Nat) (hfuel : cs.length + 1 ≤ fuel) :
    ∃ w ord, processMatches opts osRename fs cs fuel = .finished w ∧
      Sched opts osRename fs cs w ord ∧ ord.Perm (List.range cs.length) := by
  have hSet := Setup.of_validate hv hnd hfs hnc
  obtain ⟨w, ord, hret, hS, hperm⟩ :=
    execute_returns opts osRename fs hSet hfresh fuel hfuel
  refine ⟨w, ord, ?_, hS, hperm⟩
  rw [processMatches, hv]
  simp only [hret]

/-- A ranking that drops along every link rules out rename cycles. -/
theorem acyclic_of_rank (cs : List File) (rank : Nat → Nat)
    (h : ∀ i k, Linked cs i k → rank k < rank i) : ∀ cyc, ¬ RenameCycle cs cyc := by
  rintro cyc ⟨hlen, _, hch, a, b, hlast, hhead, hl⟩
  haveI : IsTrans Nat (fun x y => rank y < rank x) := ⟨fun _ _ _ h1 h2 => lt_trans h2 h1⟩
  have hpw : cyc.Pairwise (fun x y => rank y < rank x) :=
    List.chain'_iff_pairwise.1 (hch.imp (fun {x y} hxy => h x y hxy))
  match cyc, hlen, hlast, hhead, hpw with
  | x :: y :: t, _, hlast, hhead, hpw =>
    simp only [List.head?_cons, Option.some.injEq] at hhead
    subst hhead
    have ha : a ∈ y :: t := by
      have : (y :: t).getLast? = some a := by
        rw [← hlast, List.getLast?_cons_cons]
      exact List.mem_of_getLast?_eq_some this
    have h1 := (List.pairwise_cons.1 hpw).1 a ha
    have h2 := h a x hl
    omega

/-- The paths every call of the processing loop leaves alone in a dry run. -/
theorem performRename_testing (opts : Opts) (hT : opts.Testing = true)
    (osRename : List String → String → String → Option (List String)) (f : Nat) (w : World) :
    (performRename opts osRename f w).calls = w.calls ∧
      (performRename opts osRename f w).fs = w.fs := by
  unfold performRename
  split
  · exact ⟨rfl, rfl⟩
  · split
    · simp [hT]
    · exact ⟨rfl, rfl⟩

theorem Rename_testing (opts : Opts) (hT : opts.Testing = true)
    (osRename : List String → String → String → Option (List String)) (others : Others) :
    ∀ (fuel f : Nat) (w : World),
      (Rename opts osRename others fuel f w).world.calls = w.calls ∧
        (Rename opts osRename others fuel f w).world.fs = w.fs := by
  intro fuel
  induction fuel with
  | zero => intro f w; exact ⟨rfl, rfl⟩
  | succ fuel ih =>
    intro f w
    rw [Rename]
    split
    · exact ⟨rfl, rfl⟩
    · split
      · exact ⟨rfl, rfl⟩
      · split
        · rename_i other _
          have h := ih other w
          split
          · rename_i heq
            rw [heq] at h
            exact h
          · rename_i heq
            rw [heq] at h
            simp only [Res.world] at h ⊢
            have h2 := performRename_testing opts hT osRename f ‹World›
            exact ⟨h2.1.trans h.1, h2.2.trans h.2⟩
        · exact performRename_testing opts hT osRename f w

theorem renameAll_testing (opts : Opts) (hT : opts.Testing = true)
    (osRename : List String → String → String → Option (List String)) (others : Others)
    (fuel : Nat) :
    ∀ (l : List Nat) (w : World),
      (renameAll opts osRename others fuel l w).world.calls = w.calls ∧
        (renameAll opts osRename others fuel l w).world.fs = w.fs := by
  intro l
  induction l with
  | nil => intro w; exact ⟨rfl, rfl⟩
  | cons f rest ih =>
    intro w
    have h := Rename_testing opts hT osRename others fuel f w
    rw [renameAll]
    split
    · rename_i w1 heq
      rw [heq] at h
      have h2 := ih w1
      exact ⟨h2.1.trans h.1, h2.2.trans h.2⟩
    · rename_i w1 heq
      rw [heq] at h
      exact h

theorem chainMatches_acyclic : ∀ cyc, ¬ RenameCycle chainMatches cyc := by
  apply acyclic_of_rank chainMatches (fun i => 1 - i)
  rintro i k ⟨a, b, ha, hb, hab⟩
  rcases i with _ | _ | i <;> rcases k with _ | _ | k <;>
    simp [chainMatches] at ha hb <;> subst ha <;> subst hb <;> simp at hab ⊢

theorem chainMatches_validate :
    validate (fun p => decide (p ∈ ["a", "b"])) chainMatches = .ok [("b", 1), ("a", 0)] := by
  rfl

theorem DupTo_iff_mem {cs : List File} (hnd : (cs.map File.From).Nodup) :
    DupTo cs ↔ ∃ a ∈ cs, ∃ b ∈ cs, a.From ≠ b.From ∧ a.To = b.To := by
  constructor
  · rintro ⟨i, j, a, b, hij, ha, hb, hab⟩
    exact ⟨a, List.getElem?_mem ha, b, List.getElem?_mem hb,
      fun h => hij (index_eq_of_From_eq hnd ha hb h), hab⟩
  · rintro ⟨a, ha, b, hb, hne, hab⟩
    obtain ⟨i, hi⟩ := List.getElem?_of_mem ha
    obtain ⟨j, hj⟩ := List.getElem?_of_mem hb
    refine ⟨i, j, a, b, ?_, hi, hj, hab⟩
    intro hij
    subst hij
    rw [hi] at hj
    exact hne (by rw [Option.some.inj hj])

theorem SwapPair_iff_mem {cs : List File} (hnd : (cs.map File.From).Nodup) :
    SwapPair cs ↔ ∃ a ∈ cs, ∃ b ∈ cs, a.From ≠ b.From ∧ a.To = b.From ∧ b.To = a.From := by
  constructor
  · rintro ⟨i, j, a, b, hij, ha, hb, hab⟩
    exact ⟨a, List.getElem?_mem ha, b, List.getElem?_mem hb,
      fun h => hij (index_eq_of_From_eq hnd ha hb h), hab⟩
  · rintro ⟨a, ha, b, hb, hne, hab⟩
    obtain ⟨i, hi⟩ := List.getElem?_of_mem ha
    obtain ⟨j, hj⟩ := List.getElem?_of_mem hb
    refine ⟨i, j, a, b, ?_, hi, hj, hab⟩
    intro hij
    subst hij
    rw [hi] at hj
    exact hne (by rw [Option.some.inj hj])

theorem Blocked_iff_mem {cs : List File} (stat : String → Bool)
    (hnd : (cs.map File.From).Nodup) :
    Blocked stat cs ↔ ∃ a ∈ cs, stat a.To = true ∧
      ¬ ∃ b ∈ cs, b.From ≠ a.From ∧ b.From = a.To := by
  constructor
  · rintro ⟨i, a, ha, hst, hno⟩
    refine ⟨a, List.getElem?_mem ha, hst, ?_⟩
    rintro ⟨b, hb, hne, hbf⟩
    obtain ⟨j, hj⟩ := List.getElem?_of_mem hb
    refine hno ⟨j, b, ?_, hj, hbf⟩
    intro hji
    subst hji
    rw [ha] at hj
    exact hne (by rw [Option.some.inj hj])
  · rintro ⟨a, ha, hst, hno⟩
    obtain ⟨i, hi⟩ := List.getElem?_of_mem ha
    refine ⟨i, a, hi, hst, ?_⟩
    rintro ⟨j, b, hji, hb, hbf⟩
    exact hno ⟨b, List.getElem?_mem hb,
      fun h => hji (index_eq_of_From_eq hnd hb hi h), hbf⟩

/-- Whether validation succeeds does not depend on the order of the candidates. -/
theorem validate_ok_of_perm (stat : String → Bool) {cs cs' : List File}
    (hperm : cs'.Perm cs) (hnd : (cs.map File.From).Nodup)
    (hv : ∃ others, validate stat cs = .ok others) :
    ∃ others, validate stat cs' = .ok others := by
  obtain ⟨others, hv⟩ := hv
  obtain ⟨⟨hd, hs, hb⟩, _⟩ := (validate_ok_iff stat cs others).1 hv
  have hnd' : (cs'.map File.From).Nodup := ((hperm.map File.From).nodup_iff).2 hnd
  refine ⟨othersOf cs' 0 [], (validate_ok_iff stat cs' _).2 ⟨⟨?_, ?_, ?_⟩, rfl⟩⟩
  · intro h
    apply hd
    rw [DupTo_iff_mem hnd'] at h
    rw [DupTo_iff_mem hnd]
    obtain ⟨a, ha, b, hb', hrest⟩ := h
    exact ⟨a, hperm.mem_iff.1 ha, b, hperm.mem_iff.1 hb', hrest⟩
  · intro h
    apply hs
    rw [SwapPair_iff_mem hnd'] at h
    rw [SwapPair_iff_mem hnd]
    obtain ⟨a, ha, b, hb', hrest⟩ := h
    exact ⟨a, hperm.mem_iff.1 ha, b, hperm.mem_iff.1 hb', hrest⟩
  · intro h
    apply hb
    rw [Blocked_iff_mem stat hnd'] at h
    rw [Blocked_iff_mem stat hnd]
    obtain ⟨a, ha, hst, hno⟩ := h
    refine ⟨a, hperm.mem_iff.1 ha, hst, ?_⟩
    rintro ⟨b, hb', hrest⟩
    exact hno ⟨b, hperm.mem_iff.2 hb', hrest⟩

theorem fromAt_eq {cs : List File} {i : Nat} {c : File} (h : cs[i]? = some c) :
    fromAt cs i = c.From := by
  simp [fromAt, h]

/-- Every member of a closed chain of candidates is a candidate of the list. -/
theorem chain_valid {cs : List File} :
    ∀ (l : List Nat) (a b : Nat), List.Chain' (Linked cs) l → l.getLast? = some a →
      Linked cs a b → ∀ i ∈ l, ∃ c, cs[i]? = some c := by
  intro l
  induction l with
  | nil => intro a b _ _ _ i hi; simp at hi
  | cons x t ih =>
    intro a b hch hlast hl i hi
    cases t with
    | nil =>
      simp only [List.getLast?_singleton, Option.some.injEq] at hlast
      simp only [List.mem_singleton] at hi
      subst hlast
      subst hi
      obtain ⟨c, _, hc, _⟩ := hl
      exact ⟨c, hc⟩
    | cons y t =>
      simp only [List.mem_cons] at hi
      rw [List.chain'_cons] at hch
      rcases hi with h | h
      · subst h
        obtain ⟨c, _, hc, _⟩ := hch.1
        exact ⟨c, hc⟩
      · exact ih a b hch.2 (by rw [← hlast, List.getLast?_cons_cons]) hl i
          (by simpa using h)

theorem pathCycle_of_renameCycle {cs : List File} (hnd : (cs.map File.From).Nodup)
    {cyc : List Nat} (hc : RenameCycle cs cyc) : PathCycle cs (cyc.map (fromAt cs)) := by
  obtain ⟨hlen, hnodup, hch, a, b, hlast, hhead, hl⟩ := hc
  have hvalid := chain_valid cyc a b hch hlast hl
  have hlink : ∀ i k, Linked cs i k → PathLink cs (fromAt cs i) (fromAt cs k) := by
    rintro i k ⟨x, y, hx, hy, hxy⟩
    exact ⟨x, List.getElem?_mem hx, (fromAt_eq hx).symm, by rw [fromAt_eq hy, hxy]⟩
  refine ⟨by simpa using hlen, ?_, ?_, fromAt cs a, fromAt cs b, ?_, ?_, hlink a b hl⟩
  · apply List.Nodup.map_on _ hnodup
    intro i hi k hk hik
    obtain ⟨x, hx⟩ := hvalid i hi
    obtain ⟨y, hy⟩ := hvalid k hk
    rw [fromAt_eq hx, fromAt_eq hy] at hik
    exact index_eq_of_From_eq hnd hx hy hik
  · rw [List.chain'_map]
    exact hch.imp hlink
  · rw [List.getLast?_map, hlast]
    rfl
  · rw [List.head?_map, hhead]
    rfl

theorem pathLink_of_perm {cs cs' : List File} (hperm : cs'.Perm cs) {p q : String}
    (h : PathLink cs' p q) : PathLink cs p q := by
  obtain ⟨c, hc, h1, h2⟩ := h
  exact ⟨c, hperm.mem_iff.1 hc, h1, h2⟩

theorem pathCycle_of_perm {cs cs' : List File} (hperm : cs'.Perm cs) {ps : List String}
    (h : PathCycle cs' ps) : PathCycle cs ps := by
  obtain ⟨hlen, hnodup, hch, a, b, hlast, hhead, hl⟩ := h
  exact ⟨hlen, hnodup, hch.imp (fun _ _ h => pathLink_of_perm hperm h), a, b, hlast, hhead,
    pathLink_of_perm hperm hl⟩

theorem getElem?_indexAt {cs : List File} {c : File} (hc : c ∈ cs)
    (hnd : (cs.map File.From).Nodup) : cs[indexAt cs c.From]? = some c := by
  have hmem : c.From ∈ cs.map File.From := List.mem_map_of_mem _ hc
  have h := List.getElem?_indexOf hmem
  rw [List.getElem?_map] at h
  cases hx : cs[indexAt cs c.From]? with
  | none =>
    rw [indexAt] at hx
    rw [hx] at h
    simp at h
  | some x =>
    rw [indexAt] at hx
    rw [hx] at h
    simp only [Option.map_some', Option.some.injEq] at h
    obtain ⟨j, hj⟩ := List.getElem?_of_mem hc
    have := index_eq_of_From_eq hnd hx hj h
    rw [this] at hx
    rw [hj] at hx
    rw [← Option.some.inj hx]

/-- Every member of a closed chain of paths is the source of a candidate. -/
theorem pathChain_valid {cs : List File} :
    ∀ (l : List String) (a b : String), List.Chain' (PathLink cs) l → l.getLast? = some a →
      PathLink cs a b → ∀ p ∈ l, p ∈ cs.map File.From := by
  intro l
  induction l with
  | nil => intro a b _ _ _ i hi; simp at hi
  | cons x t ih =>
    intro a b hch hlast hl i hi
    cases t with
    | nil =>
      simp only [List.getLast?_singleton, Option.some.injEq] at hlast
      simp only [List.mem_singleton] at hi
      subst hlast
      subst hi
      obtain ⟨c, hc, h1, _⟩ := hl
      exact List.mem_map.2 ⟨c, hc, h1⟩
    | cons y t =>
      simp only [List.mem_cons] at hi
      rw [List.chain'_cons] at hch
      rcases hi with h | h
      · subst h
        obtain ⟨c, hc, h1, _⟩ := hch.1
        exact List.mem_map.2 ⟨c, hc, h1⟩
      · exact ih a b hch.2 (by rw [← hlast, List.getLast?_cons_cons]) hl i
          (by simpa using h)

theorem renameCycle_of_pathCycle {cs : List File} (hnd : (cs.map File.From).Nodup)
    {ps : List String} (hc : PathCycle cs ps) : RenameCycle cs (ps.map (indexAt cs)) := by
  obtain ⟨hlen, hnodup, hch, a, b, hlast, hhead, hl⟩ := hc
  have hvalid := pathChain_valid ps a b hch hlast hl
  have hlink : ∀ p q, q ∈ cs.map File.From → PathLink cs p q →
      Linked cs (indexAt cs p) (indexAt cs q) := by
    rintro p q hq ⟨c, hc, h1, h2⟩
    obtain ⟨d, hd, hdq⟩ := List.mem_map.1 hq
    refine ⟨c, d, ?_, ?_, by rw [h2, hdq]⟩
    · rw [← h1]
      exact getElem?_indexAt hc hnd
    · rw [← hdq]
      exact getElem?_indexAt hd hnd
  have hb : b ∈ ps := List.mem_of_mem_head? hhead
  refine ⟨by simpa using hlen, ?_, ?_, indexAt cs a, indexAt cs b, ?_, ?_,
    hlink a b (hvalid b hb) hl⟩
  · apply List.Nodup.map_on _ hnodup
    intro p hp q hq hpq
    exact (List.indexOf_inj (hvalid p hp) (hvalid q hq)).1 hpq
  · rw [List.chain'_map]
    rw [List.Chain'.iff_mem] at hch
    exact hch.imp (fun p q h => hlink p q (hvalid q h.2.1) h.2.2)
  · rw [List.getLast?_map, hlast]
    rfl
  · rw [List.head?_map, hhead]
    rfl

/-- Whether a list of candidates has a rename cycle does not depend on its order. -/
theorem acyclic_of_perm {cs cs' : List File} (hperm : cs'.Perm cs)
    (hnd : (cs.map File.From).Nodup) (hnc : ∀ cyc, ¬ RenameCycle cs cyc) :
    ∀ cyc, ¬ RenameCycle cs' cyc := by
  intro cyc hc
  have hnd' : (cs'.map File.From).Nodup := ((hperm.map File.From).nodup_iff).2 hnd
  exact hnc _ (renameCycle_of_pathCycle hnd (pathCycle_of_perm hperm (pathCycle_of_renameCycle hnd' hc)))

/-- C1: take a list of fresh candidates with distinct sources, all present on disk, that
passes validation and has no rename cycle. In whatever order `cs'` the candidates are
listed, the run ends and every rename was issued while its destination path did not
exist; the final file system is the one the issued calls produce. -/
theorem execution_never_overwrites (opts : Opts) (fs : List String) (cs : List File)
    (others : Others) (hfresh : ∀ c ∈ cs, c.done = false)
    (hv : validate (fun p => decide (p ∈ fs)) cs = .ok others)
    (hnd : (cs.map File.From).Nodup) (hfs : ∀ c ∈ cs, c.From ∈ fs)
    (hnc : ∀ cyc, ¬ RenameCycle cs cyc) (cs' : List File) (hperm : cs'.Perm cs)
    (fuel : Nat) (hfuel : cs.length + 1 ≤ fuel) :
    ∃ w, processMatches opts setRename fs cs' fuel = .finished w ∧
      collisionFree setRename fs w.calls ∧ w.fs = replay setRename fs w.calls := by
  have hnd' : (cs'.map File.From).Nodup := ((hperm.map File.From).nodup_iff).2 hnd
  have hfs' : ∀ c ∈ cs', c.From ∈ fs := fun c hc => hfs c (hperm.mem_iff.1 hc)
  have hfresh' : ∀ c ∈ cs', c.done = false := fun c hc => hfresh c (hperm.mem_iff.1 hc)
  have hnc' := acyclic_of_perm hperm hnd hnc
  obtain ⟨others', hv'⟩ := validate_ok_of_perm _ hperm hnd ⟨others, hv⟩
  obtain ⟨w, ord, hfin, hS, hord⟩ :=
    processMatches_finishes opts setRename hfresh' hv' hnd' hfs' hnc' fuel
      (by rw [hperm.length_eq]; exact hfuel)
  refine ⟨w, hfin, ?_, hS.fs⟩
  rw [hS.calls]
  split
  · trivial
  · obtain ⟨⟨hdup, _, hbl⟩, _⟩ := (validate_ok_iff _ cs' others').1 hv'
    have hmem : ∀ i, i ∈ ord ↔ i < cs'.length := fun i => by
      rw [hord.mem_iff, List.mem_range]
    apply collisionFree_of_order hnd' hfs' hdup hbl ord [] fs
    · simpa using hS.nodup
    · simpa using hS.before
    · intro i hi
      simpa using (hmem i).2 hi
    · intro i hi
      exact (hmem i).1 hi
    · intro p
      simp [ToIn, FromIn]

theorem execution_never_overwrites_witness :
    ∃ w, processMatches liveOpts setRename ["a", "b"]
        [{ From := "b", To := "c", done := false }, { From := "a", To := "b", done := false }] 3
          = .finished w ∧
      collisionFree setRename ["a", "b"] w.calls ∧
      w.fs = replay setRename ["a", "b"] w.calls :=
  execution_never_overwrites liveOpts ["a", "b"] chainMatches [("b", 1), ("a", 0)]
    (by decide) chainMatches_validate (by decide) (by decide) chainMatches_acyclic
    [{ From := "b", To := "c", done := false }, { From := "a", To := "b", done := false }]
    (by decide) 3 (by decide)

theorem threeCycle_validate :
    validate (fun p => decide (p ∈ ["a", "b", "c"])) threeCycle
      = .ok [("c", 2), ("b", 1), ("a", 0)] := by
  rfl

/-- On the three-cycle every call of `Rename` recurses into the next candidate before it
marks its own, so no budget suffices. -/
theorem Rename_threeCycle (opts : Opts)
    (osRename : List String → String → String → Option (List String)) (fs : List String) :
    ∀ (fuel i : Nat), i < 3 →
      Rename opts osRename [("c", 2), ("b", 1), ("a", 0)] fuel i (initWorld fs threeCycle)
        = .overflow (initWorld fs threeCycle) := by
  intro fuel
  induction fuel with
  | zero => intro i _; rfl
  | succ fuel ih =>
    intro i hi
    have h0 := ih 0 (by omega)
    have h1 := ih 1 (by omega)
    have h2 := ih 2 (by omega)
    interval_cases i
    · simp [Rename, initWorld, threeCycle, Others.get, List.lookup] at h1 ⊢
      rw [h1]
    · simp [Rename, initWorld, threeCycle, Others.get, List.lookup] at h2 ⊢
      rw [h2]
    · simp [Rename, initWorld, threeCycle, Others.get, List.lookup] at h0 ⊢
      rw [h0]

/-- C2: the three candidates `a -> b`, `b -> c`, `c -> a` (all three paths on disk) pass
validation, and then the execution phase does not return within any recursion budget,
whatever the options and the rename primitive: the run ends in the stack overflow with no
rename issued. -/
theorem three_cycle_never_returns (opts : Opts)
    (osRename : List String → String → String → Option (List String)) (fuel : Nat) :
    processMatches opts osRename ["a", "b", "c"] threeCycle fuel
      = .overflow (initWorld ["a", "b", "c"] threeCycle) := by
  rw [processMatches, threeCycle_validate]
  simp only [execute]
  have h : List.range threeCycle.length = [0, 1, 2] := by decide
  rw [h, renameAll, Rename_threeCycle opts osRename _ fuel 0 (by omega)]

/-- C3, as stated, fails: the three-cycle `a -> b`, `b -> c`, `c -> a`, all of whose paths
exist on disk, is a rename cycle of length 3 and passes validation. -/
theorem three_cycle_passes_validation :
    RenameCycle threeCycle [0, 1, 2] ∧
      (∀ c ∈ threeCycle, c.From ∈ ["a", "b", "c"] ∧ c.To ∈ ["a", "b", "c"]) ∧
      ∃ others, validate (fun p => decide (p ∈ ["a", "b", "c"])) threeCycle = .ok others := by
  refine ⟨⟨by decide, by decide, ?_, 2, 0, rfl, rfl, ?_⟩, by decide, _, threeCycle_validate⟩
  · simp only [List.chain'_cons, List.chain'_singleton, and_true]
    exact ⟨⟨_, _, rfl, rfl, rfl⟩, ⟨_, _, rfl, rfl, rfl⟩⟩
  · exact ⟨_, _, rfl, rfl, rfl⟩

/-- A rename cycle of length two is a swap pair. -/
theorem swapPair_of_two_cycle {cs : List File} {cyc : List Nat} (hc : RenameCycle cs cyc)
    (h2 : cyc.length = 2) : SwapPair cs := by
  obtain ⟨_, hnd, hch, a, b, hlast, hhead, hl⟩ := hc
  match cyc, h2, hnd, hch, hlast, hhead with
  | [x, y], _, hnd, hch, hlast, hhead =>
    simp only [List.getLast?_cons_cons, List.getLast?_singleton, Option.some.injEq] at hlast
    simp only [List.head?_cons, Option.some.injEq] at hhead
    subst hlast
    subst hhead
    simp only [List.chain'_cons, List.chain'_singleton, and_true] at hch
    obtain ⟨c1, c2, h1, h2', h12⟩ := hch
    obtain ⟨d2, d1, g2, g1, h21⟩ := hl
    rw [h1] at g1
    rw [h2'] at g2
    have e1 : c1 = d1 := Option.some.inj g1
    have e2 : c2 = d2 := Option.some.inj g2
    subst e1
    subst e2
    have hxy : x ≠ y := by
      intro h
      simp [h] at hnd
    exact ⟨x, y, c1, c2, hxy, h1, h2', h12, h21⟩

/-- C3, amended: validation rejects every candidate list that contains a rename cycle of
length two, whatever exists on disk. -/
theorem validate_rejects_two_cycle (stat : String → Bool) (cs : List File) (cyc : List Nat)
    (hc : RenameCycle cs cyc) (h2 : cyc.length = 2) :
    ∃ c, validate stat cs = .error c :=
  (validate_error_iff stat cs).2 (Or.inr (Or.inl (swapPair_of_two_cycle hc h2)))

theorem swapMatches_cycle : RenameCycle swapMatches [0, 1] := by
  refine ⟨by decide, by decide, ?_, 1, 0, rfl, rfl, ⟨_, _, rfl, rfl, rfl⟩⟩
  simp only [List.chain'_cons, List.chain'_singleton, and_true]
  exact ⟨_, _, rfl, rfl, rfl⟩

theorem validate_rejects_two_cycle_witness :
    ∃ c, validate (fun p => decide (p ∈ ["a", "b"])) swapMatches = .error c :=
  validate_rejects_two_cycle _ swapMatches [0, 1] swapMatches_cycle rfl

/-- C4: when the list holds two distinct candidates that swap their paths, validation
complains and the run ends in the initial world: no rename has been issued and the file
system is untouched. -/
theorem swap_rejected_before_any_rename (opts : Opts)
    (osRename : List String → String → String → Option (List String))
    (fs : List String) (cs : List File) (fuel : Nat) (h : SwapPair cs) :
    ∃ c w, processMatches opts osRename fs cs fuel = .complained c w ∧
      w.calls = [] ∧ w.fs = fs := by
  obtain ⟨c, hc⟩ := (validate_error_iff (fun p => decide (p ∈ fs)) cs).2 (Or.inr (Or.inl h))
  refine ⟨c, initWorld fs cs, ?_, rfl, rfl⟩
  rw [processMatches, hc]

theorem swap_rejected_before_any_rename_witness :
    ∃ c w, processMatches liveOpts setRename ["a", "b"] swapMatches 3 = .complained c w ∧
      w.calls = [] ∧ w.fs = ["a", "b"] :=
  swap_rejected_before_any_rename liveOpts setRename ["a", "b"] swapMatches 3
    ⟨0, 1, _, _, by decide, rfl, rfl, rfl, rfl⟩

/-- C5: when validation succeeds no two distinct candidates have the same destination,
and a list in which two distinct candidates share a destination is rejected. -/
theorem validated_destinations_distinct (stat : String → Bool) (cs : List File) :
    ((∃ others, validate stat cs = .ok others) →
      ∀ (i j : Nat) (a b : File), i ≠ j → cs[i]? = some a → cs[j]? = some b → a.To ≠ b.To) ∧
    ((∃ (i j : Nat) (a b : File), i ≠ j ∧ cs[i]? = some a ∧ cs[j]? = some b ∧ a.To = b.To) →
      ∃ c, validate stat cs = .error c) := by
  constructor
  · rintro ⟨others, hv⟩ i j a b hij ha hb hab
    exact ((validate_ok_iff stat cs others).1 hv).1.1 ⟨i, j, a, b, hij, ha, hb, hab⟩
  · intro h
    exact (validate_error_iff stat cs).2 (Or.inl h)

theorem validated_destinations_distinct_witness :
    (∀ (i j : Nat) (a b : File), i ≠ j → chainMatches[i]? = some a →
        chainMatches[j]? = some b → a.To ≠ b.To) ∧
      ∃ c, validate (fun _ => false)
        [{ From := "x", To := "z", done := false }, { From := "y", To := "z", done := false }]
          = .error c :=
  ⟨(validated_destinations_distinct _ chainMatches).1 ⟨_, chainMatches_validate⟩,
    (validated_destinations_distinct _ _).2 ⟨0, 1, _, _, by decide, rfl, rfl, rfl⟩⟩

/-- C6: for a list without a shared destination and without a swap, and any state of the
disk, validation rejects the run exactly when some candidate's destination exists and is
not the `From` of another candidate; so a candidate that renames an existing file onto
itself, no other candidate starting at that path, makes validation fail. -/
theorem validate_rejects_iff_blocked (stat : String → Bool) (cs : List File)
    (hd : ¬ DupTo cs) (hs : ¬ SwapPair cs) :
    ((∃ c, validate stat cs = .error c) ↔
      ∃ (i : Nat) (a : File), cs[i]? = some a ∧ stat a.To = true ∧
        ¬ ∃ (j : Nat) (b : File), j ≠ i ∧ cs[j]? = some b ∧ b.From = a.To) ∧
    (∀ (i : Nat) (a : File), cs[i]? = some a → a.To = a.From → stat a.From = true →
      (∀ (j : Nat) (b : File), j ≠ i → cs[j]? = some b → b.From ≠ a.From) →
      ∃ c, validate stat cs = .error c) := by
  have hiff : (∃ c, validate stat cs = .error c) ↔ Blocked stat cs := by
    rw [validate_error_iff]
    constructor
    · rintro (h | h | h)
      · exact absurd h hd
      · exact absurd h hs
      · exact h
    · intro h
      exact Or.inr (Or.inr h)
  refine ⟨hiff, ?_⟩
  intro i a ha hself hst hno
  refine hiff.2 ⟨i, a, ha, by rw [hself]; exact hst, ?_⟩
  rintro ⟨j, b, hji, hb, hbf⟩
  exact hno j b hji hb (hbf.trans hself)

theorem singleton_no_pair (x : File) : ¬ DupTo [x] ∧ ¬ SwapPair [x] := by
  constructor <;>
  · rintro ⟨i, j, a, b, hij, ha, hb, _⟩
    have hi := (List.getElem?_eq_some_iff.1 ha).1
    have hj := (List.getElem?_eq_some_iff.1 hb).1
    simp only [List.length_singleton] at hi hj
    omega

theorem validate_rejects_iff_blocked_witness :
    ∃ c, validate (fun p => decide (p ∈ ["a"])) [{ From := "a", To := "a", done := false }]
      = .error c :=
  (validate_rejects_iff_blocked (fun p => decide (p ∈ ["a"]))
    [{ From := "a", To := "a", done := false }]
    (singleton_no_pair _).1 (singleton_no_pair _).2).2 0 _ rfl rfl rfl
    (by
      intro j b hj hb
      have := (List.getElem?_eq_some_iff.1 hb).1
      simp only [List.length_singleton] at this
      omega)

/-- C7: on a validated, cycle-free list of fresh candidates with distinct sources, all
present on disk, the execution phase ends with every candidate done; in a live run the
renames issued are a permutation of the candidates' `(From, To)` pairs, whatever the
rename primitive does, and in a dry run, where none is issued, the lines reported are a
permutation of the candidates' lines. -/
theorem execution_renames_each_once (opts : Opts)
    (osRename : List String → String → String → Option (List String))
    (fs : List String) (cs : List File) (others : Others)
    (hfresh : ∀ c ∈ cs, c.done = false)
    (hv : validate (fun p => decide (p ∈ fs)) cs = .ok others)
    (hnd : (cs.map File.From).Nodup) (hfs : ∀ c ∈ cs, c.From ∈ fs)
    (hnc : ∀ cyc, ¬ RenameCycle cs cyc) (fuel : Nat) (hfuel : cs.length + 1 ≤ fuel) :
    ∃ w, processMatches opts osRename fs cs fuel = .finished w ∧
      (opts.Testing = false → w.calls.Perm (cs.map File.pair)) ∧
      (opts.Testing = true → w.out.Perm (cs.map renameLine)) ∧
      w.files.map File.pair = cs.map File.pair ∧ ∀ f ∈ w.files, f.done = true := by
  obtain ⟨w, ord, hfin, hS, hperm⟩ :=
    processMatches_finishes opts osRename hfresh hv hnd hfs hnc fuel hfuel
  refine ⟨w, hfin, ?_, ?_, ?_, ?_⟩
  · intro hT
    rw [hS.calls, hT, ← filterMap_range_getElem? File.pair cs]
    exact hperm.filterMap _
  · intro hT
    rw [hS.out, hT, ← filterMap_range_getElem? renameLine cs]
    simpa using hperm.filterMap _
  · apply List.ext_getElem?
    intro i
    simp only [List.getElem?_map]
    cases hi : w.files[i]? with
    | none =>
      have : cs.length ≤ i := by
        rw [← hS.len]
        exact List.getElem?_eq_none_iff.1 hi
      rw [List.getElem?_eq_none_iff.2 this]
    | some f =>
      obtain ⟨c, hc, h1, h2⟩ := hS.same i f hi
      rw [hc]
      simp [File.pair, h1, h2]
  · intro f hf
    obtain ⟨i, hi⟩ := List.getElem?_of_mem hf
    have hilt : i < cs.length := by
      rw [← hS.len]
      exact (List.getElem?_eq_some_iff.1 hi).1
    obtain ⟨f', hf', hd'⟩ := (hS.done_iff i).1 (hperm.mem_iff.2 (List.mem_range.2 hilt))
    rw [hi] at hf'
    rw [Option.some.inj hf']
    exact hd'

theorem execution_renames_each_once_witness :
    ∃ w, processMatches liveOpts setRename ["a", "b"] chainMatches 3 = .finished w ∧
      (liveOpts.Testing = false → w.calls.Perm (chainMatches.map File.pair)) ∧
      (liveOpts.Testing = true → w.out.Perm (chainMatches.map renameLine)) ∧
      w.files.map File.pair = chainMatches.map File.pair ∧ ∀ f ∈ w.files, f.done = true :=
  execution_renames_each_once liveOpts setRename ["a", "b"] chainMatches
    [("b", 1), ("a", 0)] (by decide) chainMatches_validate (by decide) (by decide)
    chainMatches_acyclic 3 (by decide)

/-- C8: in `new.go` a failing rename primitive goes unnoticed. With a primitive that fails
on every call, the run over `a -> b`, `c -> d` still issues the second rename after
the first has failed and ends as a normal, finished run. -/
theorem rename_failure_not_surfaced :
    processMatches liveOpts (fun _ _ _ => none) ["a", "c"]
      [{ From := "a", To := "b", done := false }, { From := "c", To := "d", done := false }] 3
      = .finished
        { files := [{ From := "a", To := "b", done := true },
                    { From := "c", To := "d", done := true }]
          fs := ["a", "c"]
          calls := [("a", "b"), ("c", "d")]
          out := [] } := by
  decide

/-- C9: in a dry run no call to the rename primitive is issued and the file system is the
initial one, for every candidate list and every recursion budget; and on a validated,
cycle-free list of fresh candidates with distinct sources, all present on disk, the run
ends having reported each candidate on one line. -/
theorem dry_run_only_reports (opts : Opts) (hT : opts.Testing = true)
    (osRename : List String → String → String → Option (List String))
    (fs : List String) (cs : List File) (fuel : Nat) :
    (processMatches opts osRename fs cs fuel).world.calls = [] ∧
    (processMatches opts osRename fs cs fuel).world.fs = fs ∧
    (∀ others, (∀ c ∈ cs, c.done = false) →
      validate (fun p => decide (p ∈ fs)) cs = .ok others →
      (cs.map File.From).Nodup → (∀ c ∈ cs, c.From ∈ fs) →
      (∀ cyc, ¬ RenameCycle cs cyc) → cs.length + 1 ≤ fuel →
      ∃ w, processMatches opts osRename fs cs fuel = .finished w ∧
        w.out.Perm (cs.map renameLine)) := by
  have hframe : (processMatches opts osRename fs cs fuel).world.calls = [] ∧
      (processMatches opts osRename fs cs fuel).world.fs = fs := by
    rw [processMatches]
    split
    · exact ⟨rfl, rfl⟩
    · rename_i others _
      have h := renameAll_testing opts hT osRename others fuel (List.range cs.length)
        (initWorld fs cs)
      rw [execute]
      split
      · rename_i w heq
        rw [heq] at h
        exact h
      · rename_i w heq
        rw [heq] at h
        exact h
  refine ⟨hframe.1, hframe.2, ?_⟩
  intro others hfresh hv hnd hfs hnc hfuel
  obtain ⟨w, ord, hfin, hS, hperm⟩ :=
    processMatches_finishes opts osRename hfresh hv hnd hfs hnc fuel hfuel
  refine ⟨w, hfin, ?_⟩
  rw [hS.out, hT, ← filterMap_range_getElem? renameLine cs]
  simpa using hperm.filterMap _

theorem dry_run_only_reports_witness :
    (processMatches dryOpts setRename ["a", "b"] chainMatches 3).world.calls = [] ∧
    (processMatches dryOpts setRename ["a", "b"] chainMatches 3).world.fs = ["a", "b"] ∧
    ∃ w, processMatches dryOpts setRename ["a", "b"] chainMatches 3 = .finished w ∧
      w.out.Perm (chainMatches.map renameLine) :=
  have h := dry_run_only_reports dryOpts rfl setRename ["a", "b"] chainMatches 3
  ⟨h.1, h.2.1, h.2.2 [("b", 1), ("a", 0)] (by decide) chainMatches_validate (by decide)
    (by decide) chainMatches_acyclic (by decide)⟩

/-- C10: `StringReplacer.Replace` with a pattern loses the text behind the last replaced
match. For the name `frame007.png`, the pattern `\d+`, the replacement `8` and `Num = 1`
the only match is `007`, and the code returns `frame8`, not `frame8.png`. -/
theorem stringReplacer_drops_tail :
    digitsRegexp.FindAllString "frame007.png" 1 = ["007"] ∧
      StringReplacer.Replace "8" liveOpts "frame007.png" "" (some digitsRegexp)
        = some "frame8" := by
  decide

/-- The older `main` (go-rename.go) surfaces a failing rename: the loop panics at the
first match whose rename fails, and no rename is issued for the matches behind it. -/
theorem oldMainLoop_panics (verbose : Bool) (dest : String) (m : Match) (rest : List Match)
    (w : OldWorld) :
    ∃ w', oldMainLoop verbose false (fun _ _ _ => none) dest (m :: rest) w = .panicked w' ∧
      w'.calls = w.calls ++ [(m.Path, stringsReplace m.Path m.Match dest 1)] ∧
      w'.fs = w.fs := by
  cases verbose <;> exact ⟨_, rfl, rfl, rfl⟩

theorem indexOf_singleton_none {c : Char} {s : List Char} (h : indexOf [c] s = none) :
    c ∉ s := by
  induction s with
  | nil => simp
  | cons x xs ih =>
    simp only [indexOf, List.isPrefixOf, Bool.and_true] at h
    by_cases hx : c = x
    · simp [hx] at h
    · have hx' : (c == x) = false := by simpa using hx
      rw [hx'] at h
      simp only [Bool.false_eq_true, if_false, Option.map_eq_none'] at h
      simp only [List.mem_cons, not_or]
      exact ⟨hx, ih h⟩

theorem indexOf_singleton_some {c : Char} {s : List Char} {i : Nat}
    (h : indexOf [c] s = some i) :
    ∃ pre post, s = pre ++ c :: post ∧ c ∉ pre ∧ pre.length = i := by
  induction s generalizing i with
  | nil => simp [indexOf] at h
  | cons x xs ih =>
    simp only [indexOf, List.isPrefixOf, Bool.and_true] at h
    by_cases hx : c = x
    · subst hx
      simp at h
      exact ⟨[], xs, rfl, by simp, h⟩
    · have hx' : (c == x) = false := by simpa using hx
      rw [hx'] at h
      simp only [Bool.false_eq_true, if_false, Option.map_eq_some'] at h
      obtain ⟨j, hj, hji⟩ := h
      obtain ⟨pre, post, hs, hpre, hlen⟩ := ih hj
      refine ⟨x :: pre, post, by rw [hs]; rfl, ?_, by simp [hlen, hji]⟩
      simp only [List.mem_cons, not_or]
      exact ⟨hx, hpre⟩

theorem badPair_append (pre x : List Char) (h : '%' ∉ pre) :
    badPair (pre ++ x) = badPair x := by
  induction pre with
  | nil => rfl
  | cons c pre ih =>
    simp only [List.mem_cons, not_or] at h
    have hc : ¬ c = '%' := fun e => h.1 e.symm
    rw [← ih h.2, List.cons_append]
    cases pre ++ x with
    | nil => simp [badPair]
    | cons d rest => simp [badPair, hc]

theorem loneEnd_append (pre x : List Char) (h : '%' ∉ pre) :
    loneEnd (pre ++ x) = loneEnd x := by
  induction pre with
  | nil => rfl
  | cons c pre ih =>
    simp only [List.mem_cons, not_or] at h
    have hc : ¬ c = '%' := fun e => h.1 e.symm
    rw [← ih h.2, List.cons_append]
    cases pre ++ x with
    | nil => simp [loneEnd, hc]
    | cons d rest => simp [loneEnd, hc]

/-- What the loop of `NewRegexMatcher` does on a template, given enough rounds. -/
theorem matcherLoop_spec :
    ∀ (fuel : Nat) (s buf : List Char), s.length < fuel →
      (badPair s = true → ∃ msg, matcherLoop fuel s buf = .complained msg) ∧
      (badPair s = false → ∃ out, matcherLoop fuel s buf = .ok ⟨out⟩ ∧
        (loneEnd s = true → ∃ pre, out = pre ++ ['%'])) := by
  intro fuel
  induction fuel with
  | zero => intro s buf h; omega
  | succ fuel ih =>
    intro s buf hlen
    rw [matcherLoop]
    cases hi : indexOf ['%'] s with
    | none =>
      have hno := indexOf_singleton_none hi
      have hb : badPair s = false := by
        have := badPair_append s [] hno
        simpa [badPair] using this
      have hl : loneEnd s = false := by
        have := loneEnd_append s [] hno
        simpa [loneEnd] using this
      simp [hb, hl]
    | some i =>
      obtain ⟨pre, post, hs, hpre, hpl⟩ := indexOf_singleton_some hi
      subst hs
      subst hpl
      rw [badPair_append _ _ hpre, loneEnd_append _ _ hpre]
      have htake : (pre ++ '%' :: post).take pre.length = pre := by simp
      cases post with
      | nil =>
        simp only [htake, List.length_append, List.length_singleton, if_true, badPair,
          loneEnd]
        refine ⟨by simp, fun _ => ⟨_, rfl, fun _ => ⟨buf ++ pre, ?_⟩⟩⟩
        simp
      | cons d rest =>
        have hne : ¬ ((pre ++ '%' :: d :: rest).length = pre.length + 1) := by
          simp only [List.length_append, List.length_cons]
          omega
        have hget : (pre ++ '%' :: d :: rest).getD (pre.length + 1) ' ' = d := by
          rw [List.getD_eq_getElem?_getD, List.getElem?_append_right (by omega)]
          simp
        have hdrop : (pre ++ '%' :: d :: rest).drop (pre.length + 2) = rest := by
          rw [List.drop_append_eq_append_drop]
          simp
        have hrest : rest.length < fuel := by
          simp only [List.length_append, List.length_cons] at hlen
          omega
        simp only [htake, hne, if_false, hget, hdrop]
        by_cases hcl : isClassLetter d = true
        · simp only [hcl, if_true, badPair, loneEnd, Bool.true_or]
          exact ih rest _ hrest
        · by_cases hp : d = '%'
          · subst hp
            simp only [badPair, loneEnd, if_true, Bool.or_true]
            simp only [Bool.not_eq_true] at hcl
            simp only [hcl, Bool.false_eq_true, if_false]
            exact ih rest _ hrest
          · simp [hcl, hp, badPair]

/-- C13: `NewRegexMatcher` loses the text behind the last `%` pair. From the template
`%d+.txt` it compiles the source `\d`, where replacing the shorthand and keeping the rest
gives `\d+.txt`; from a template without `%`, such as `abc`, it compiles the empty
source. -/
theorem matcher_source_drops_tail :
    NewRegexMatcher "%d+.txt" = .ok "\\d" ∧
      String.mk (expandShorthand "%d+.txt".data) = "\\d+.txt" ∧
      NewRegexMatcher "abc" = .ok "" := by
  decide

/-- C15: the matcher built from the shorthand `%d+.txt` matches the name `42.txt` and
does not match the name `abc.txt`. -/
theorem shorthand_matcher_example :
    templateMatches "%d+.txt" "42.txt" = some true ∧
      templateMatches "%d+.txt" "abc.txt" = some false := by
  decide

/-- C17: `NewRegexMatcher` ends in `complain` exactly when, reading the template left to
right in pairs, some `%` is followed by a character other than `s`, `S`, `w`, `W`, `d`,
`D` or `%`; otherwise it returns, and when the template ends in a lone `%` the source it
returns ends in a literal `%`. -/
theorem newRegexMatcher_complains_iff (s : String) :
    ((∃ msg, NewRegexMatcher s = .complained msg) ↔ badPair s.data = true) ∧
      (badPair s.data = false → ∃ src, NewRegexMatcher s = .ok src) ∧
      (badPair s.data = false → loneEnd s.data = true →
        ∃ pre, NewRegexMatcher s = .ok ⟨pre ++ ['%']⟩) := by
  have h := matcherLoop_spec (s.length + 1) s.data [] (Nat.lt_succ_self _)
  refine ⟨⟨?_, h.1⟩, ?_, ?_⟩
  · rintro ⟨msg, hmsg⟩
    by_contra hb
    obtain ⟨out, hout, _⟩ := h.2 (by simpa using hb)
    rw [NewRegexMatcher, hout] at hmsg
    exact absurd hmsg (by simp)
  · intro hb
    obtain ⟨out, hout, _⟩ := h.2 hb
    exact ⟨⟨out⟩, hout⟩
  · intro hb hl
    obtain ⟨out, hout, hpre⟩ := h.2 hb
    obtain ⟨pre, hp⟩ := hpre hl
    exact ⟨pre, by rw [NewRegexMatcher, hout, hp]⟩

theorem newRegexMatcher_complains_iff_witness :
    (∃ msg, NewRegexMatcher "a%xb" = .complained msg) ∧
      (∃ src, NewRegexMatcher "%w+" = .ok src) ∧
      ∃ pre, NewRegexMatcher "100%" = .ok ⟨pre ++ ['%']⟩ :=
  ⟨(newRegexMatcher_complains_iff "a%xb").1.2 (by decide),
    (newRegexMatcher_complains_iff "%w+").2.1 (by decide),
    (newRegexMatcher_complains_iff "100%").2.2 (by decide) (by decide)⟩

/-- A round of `NewRegexReplacer` that meets a `%` followed by a digit leaves the template
unchanged, so the next round meets the same `%`: no number of rounds suffices. -/
theorem replacerLoop_stuck (s : List Char) (i : Nat) (hi : indexOf ['%'] s = some i)
    (hlen : s.length ≠ i + 1) (hd : (s.getD (i + 1) ' ').isDigit = true) :
    ∀ (fuel : Nat) (parts : List String) (groups : List Int),
      replacerLoop fuel s parts groups = .crashed := by
  have hne : ¬ (s.getD (i + 1) ' ' = '%') := by
    intro h
    rw [h] at hd
    exact absurd hd (by decide)
  intro fuel
  induction fuel with
  | zero => intro parts groups; rfl
  | succ fuel ih =>
    intro parts groups
    rw [replacerLoop, hi]
    simp only [hlen, if_false, hne, hd, if_true]
    exact ih _ _

/-- C20: when the first `%` of the template is followed by a digit, `NewRegexReplacer`
neither returns nor reaches `complain`, however many rounds of its loop are run: the
round that parses the placeholder consumes nothing of the template. -/
theorem newRegexReplacer_never_returns (pre rest : List Char) (d : Char)
    (hpre : '%' ∉ pre) (hd : d.isDigit = true) (fuel : Nat) :
    NewRegexReplacer fuel ⟨pre ++ '%' :: d :: rest⟩ = .crashed := by
  have hi : indexOf ['%'] (pre ++ '%' :: d :: rest) = some pre.length := by
    clear hd
    induction pre with
    | nil => simp [indexOf, List.isPrefixOf]
    | cons c pre ih =>
      simp only [List.mem_cons, not_or] at hpre
      have hc : ('%' == c) = false := by simpa using hpre.1
      simp [indexOf, List.isPrefixOf, hc, ih hpre.2]
  have hget : (pre ++ '%' :: d :: rest).getD (pre.length + 1) ' ' = d := by
    rw [List.getD_eq_getElem?_getD, List.getElem?_append_right (by omega)]
    simp
  exact replacerLoop_stuck _ _ hi
    (by simp only [List.length_append, List.length_cons]; omega) (by rw [hget]; exact hd)
    fuel [] []

theorem newRegexReplacer_never_returns_witness :
    NewRegexReplacer 1000000 "img%1.jpg" = .crashed :=
  newRegexReplacer_never_returns "img".data ".jpg".data '1' (by decide) (by decide) 1000000

/-- C11: for the template `%1-%2` the constructor `NewRegexReplacer` never returns,
however many rounds of its loop are run, so no replacer is built from it. -/
theorem capture_template_never_built (fuel : Nat) :
    NewRegexReplacer fuel "%1-%2" = .crashed :=
  replacerLoop_stuck "%1-%2".data 0 (by decide) (by decide) (by decide) fuel [] []

/-- Were the parts `""`, `"-"`, `""` and the groups `1`, `2` that the template `%1-%2`
stands for handed to `RegexReplacer.Replace`, the name `2024_03`, matched as a whole
with the groups `2024` and `03`, would become `2024-03`. -/
theorem regexReplace_on_intended_parts :
    (RegexReplacer.Replace { parts := ["", "-", ""], groups := [1, 2] }
      [["2024_03", "2024", "03"]] [] "2024_03").map Prod.fst = some "2024-03" := by
  decide

/-- A template without a placeholder is read to the end. -/
theorem newRegexReplacer_literal :
    NewRegexReplacer 3 "a%%b" = .ok { parts := ["a%", "b"], groups := [] } := by
  decide

theorem takeWhile_digit_run (d t : List Char) (hdig : ∀ c ∈ d, c.isDigit = true)
    (ht : ∀ c ∈ t.head?, c.isDigit = false) :
    (d ++ t).takeWhile Char.isDigit = d := by
  induction d with
  | nil =>
    cases t with
    | nil => rfl
    | cons c t =>
      have := ht c (by simp)
      simp [List.takeWhile, this]
  | cons c d ih =>
    have hc := hdig c (List.mem_cons_self c d)
    have ih' := ih (fun x hx => hdig x (List.mem_cons_of_mem c hx))
    simp only [List.cons_append, List.takeWhile_cons, hc, if_true, ih']

theorem numStart_findString (d t : List Char) (hd : d ≠ [])
    (hdig : ∀ c ∈ d, c.isDigit = true) (ht : ∀ c ∈ t.head?, c.isDigit = false) :
    numStartRegex.FindString ⟨d ++ t⟩ = ⟨d⟩ := by
  have hlen : d.length ≠ 0 := by
    intro h
    exact hd (List.length_eq_zero.1 h)
  simp only [Regexp.FindString, numStartRegex, takeWhile_digit_run d t hdig ht, hlen,
    if_false, slice]
  simp

theorem atoi_digit_run (d : List Char) (hd : d ≠ []) (hdig : ∀ c ∈ d, c.isDigit = true)
    (hv : digitsValue d < 2 ^ 63) : atoi ⟨d⟩ = some (digitsValue d : Int) := by
  cases d with
  | nil => exact absurd rfl hd
  | cons c d =>
    have hc := hdig c (List.mem_cons_self c d)
    have hm : c ≠ '-' := by
      intro h
      rw [h] at hc
      exact absurd hc (by decide)
    have hp : c ≠ '+' := by
      intro h
      rw [h] at hc
      exact absurd hc (by decide)
    have hall : (c :: d).all Char.isDigit = true := by
      rw [List.all_eq_true]
      exact hdig
    have hds : (match c :: d with
        | '-' :: r => r
        | '+' :: r => r
        | cs => cs) = c :: d := by
      split
      · rename_i heq
        exact absurd (List.cons.inj heq).1 hm
      · rename_i heq
        exact absurd (List.cons.inj heq).1 hp
      · rfl
    simp only [atoi, hds, hall, List.head?_cons, Option.some.injEq, hm, hv]
    simp

theorem wrapInt_of_fits (x : Int) (h1 : -2 ^ 63 ≤ x) (h2 : x < 2 ^ 63) : wrapInt x = x := by
  unfold wrapInt
  rw [Int.emod_eq_of_lt (by omega) (by omega)]
  omega

theorem isPrefixOf_append_self (d t : List Char) : d.isPrefixOf (d ++ t) = true := by
  induction d with
  | nil => cases t <;> rfl
  | cons c d ih => simp [List.isPrefixOf, ih]

theorem indexOf_append_self (d t : List Char) (hd : d ≠ []) :
    indexOf d (d ++ t) = some 0 := by
  cases d with
  | nil => exact absurd rfl hd
  | cons c d =>
    have := isPrefixOf_append_self (c :: d) t
    simp only [List.cons_append] at this ⊢
    simp [indexOf, this]

/-- Go's `strings.Replace` with the count 1 on a string that starts with the non-empty
text to replace. -/
theorem stringsReplace_leading (d t : List Char) (r : String) (hd : d ≠ []) :
    stringsReplace ⟨d ++ t⟩ ⟨d⟩ r 1 = r ++ ⟨t⟩ := by
  unfold stringsReplace
  by_cases heq : (⟨d⟩ : String) = r
  · subst heq
    simp only [true_or, if_true]
    rfl
  · have hidx := indexOf_append_self d t hd
    have hcount : stringsCount (d ++ t) d = 1 + countFrom d (d ++ t).length
        ((d ++ t).drop (0 + d.length)) := by
      simp only [stringsCount, hd, if_false, countFrom, hidx]
    simp only [heq, false_or, if_false, hcount]
    have h1 : ¬ ((1 : Int) = 0) := by decide
    have h2 : ¬ (1 + countFrom d (d ++ t).length ((d ++ t).drop (0 + d.length)) = 0) := by
      omega
    have h3 : ¬ ((1 : Int) < 0 ∨
        ((1 + countFrom d (d ++ t).length ((d ++ t).drop (0 + d.length)) : Nat) : Int) < 1) := by
      omega
    simp only [h1, h2, h3, if_false]
    have h4 : (1 : Int).toNat = 1 := rfl
    rw [h4]
    simp only [replaceLoop, hd, if_false, hidx, Option.getD_some, List.take_zero,
      List.nil_append, Nat.zero_add, List.drop_left]
    rfl

/-- The character of a decimal digit is a digit with that value, and is `0` only for
zero. -/
theorem digitChar_digit (m : Nat) (h : m < 10) :
    (Nat.digitChar m).isDigit = true ∧ (Nat.digitChar m).toNat - 48 = m ∧
      (m ≠ 0 → Nat.digitChar m ≠ '0') ∧ (m = 0 → Nat.digitChar m = '0') := by
  revert m
  decide

/-- The digits written by `Nat.toDigitsCore` in base ten, with enough fuel: a non-empty
run of decimal digits put in front of `ds`, without a leading zero unless the number is
zero, and with the value `n`. -/
theorem toDigitsCore_ten (fuel : Nat) : ∀ (n : Nat) (ds : List Char), n < fuel →
    ∃ p : List Char, Nat.toDigitsCore 10 fuel n ds = p ++ ds ∧ p ≠ [] ∧
      (∀ c ∈ p, c.isDigit = true) ∧ (n ≠ 0 → p.head? ≠ some '0') ∧ (n = 0 → p = ['0']) ∧
      Nat.ofDigits 10 (p.reverse.map (fun c => c.toNat - 48)) = n := by
  induction fuel with
  | zero => intro n ds h; omega
  | succ fuel ih =>
    intro n ds h
    obtain ⟨hdig, hval, hnz, hz⟩ := digitChar_digit (n % 10) (Nat.mod_lt n (by decide))
    by_cases hq : n / 10 = 0
    · have hlt : n < 10 := by omega
      have hmod : n % 10 = n := Nat.mod_eq_of_lt hlt
      refine ⟨[Nat.digitChar (n % 10)], ?_, by simp, ?_, ?_, ?_, ?_⟩
      · simp only [Nat.toDigitsCore, hq, if_true, List.singleton_append]
      · intro c hc
        rw [List.mem_singleton] at hc
        rw [hc]
        exact hdig
      · intro hn
        rw [hmod] at hnz
        simpa [hmod] using hnz hn
      · intro hn
        rw [hmod] at hz
        simp [hmod, hz hn]
      · rw [hmod] at hval
        simp [Nat.ofDigits, hmod, hval]
    · have hlt : n / 10 < fuel := by omega
      obtain ⟨p, hp, hne, hall, hhead, _, hv⟩ :=
        ih (n / 10) (Nat.digitChar (n % 10) :: ds) hlt
      refine ⟨p ++ [Nat.digitChar (n % 10)], ?_, by simp, ?_, ?_, ?_, ?_⟩
      · simp only [Nat.toDigitsCore, hq, if_false, hp, List.append_assoc,
          List.singleton_append]
      · intro c hc
        rcases List.mem_append.1 hc with h1 | h1
        · exact hall c h1
        · rw [List.mem_singleton] at h1
          rw [h1]
          exact hdig
      · intro _
        cases p with
        | nil => exact absurd rfl hne
        | cons c p => simpa using hhead hq
      · intro hn
        omega
      · simp only [List.reverse_append, List.reverse_singleton, List.singleton_append,
          List.map_cons, Nat.ofDigits_cons, hv, hval]
        omega

/-- The text of `strconv.Itoa` as modelled by `itoa`: a minus sign exactly for a negative
number, then the decimal digits of the absolute value, without a leading zero unless the
number is zero. -/
theorem itoa_base10 (n : Int) :
    ∃ ds : List Char, itoa n = ⟨(if n < 0 then ['-'] else []) ++ ds⟩ ∧ ds ≠ [] ∧
      (∀ c ∈ ds, c.isDigit = true) ∧ (ds.head? = some '0' → ds = ['0']) ∧
      Nat.ofDigits 10 (ds.reverse.map (fun c => c.toNat - 48)) = n.natAbs := by
  obtain ⟨p, hp, hne, hall, hhead, hzero, hv⟩ :=
    toDigitsCore_ten (n.natAbs + 1) n.natAbs [] (Nat.lt_succ_self _)
  rw [List.append_nil] at hp
  have hdigits : Nat.toDigits 10 n.natAbs = p := hp
  refine ⟨p, ?_, hne, hall, ?_, hv⟩
  · by_cases hn : n < 0
    · simp only [itoa, hn, if_true, hdigits, List.singleton_append]
    · have hnat : n.toNat = n.natAbs := by omega
      simp only [itoa, hn, if_false, hnat, hdigits, List.nil_append]
  · intro h0
    by_cases hz : n.natAbs = 0
    · exact hzero hz
    · exact absurd h0 (hhead hz)

/-- The value computed by `digitsValue` is the number whose base-ten digits, most
significant first, the characters are. -/
theorem digitsValue_eq_ofDigits (d : List Char) :
    digitsValue d = Nat.ofDigits 10 (d.reverse.map (fun c => c.toNat - 48)) := by
  have key : ∀ (d : List Char) (acc : Nat),
      d.foldl (fun acc c => acc * 10 + (c.toNat - 48)) acc
        = acc * 10 ^ d.length
          + Nat.ofDigits 10 (d.reverse.map (fun c => c.toNat - 48)) := by
    intro d
    induction d with
    | nil => intro acc; simp [Nat.ofDigits]
    | cons c d ih =>
      intro acc
      simp only [List.foldl_cons, ih, List.reverse_cons, List.map_append, List.map_cons,
        List.map_nil, Nat.ofDigits_append, Nat.ofDigits_singleton, List.length_map,
        List.length_reverse, List.length_cons]
      ring
  have := key d 0
  simpa [digitsValue] using this

/-- C19: for a name `d ++ t`, with `d` a non-empty run of decimal digits that write the
number `v` in base ten (`v` fitting in a 64-bit `int`) and `t` not starting with a digit,
the start-anchored numeric replacer with the delta `k` (`v + k` fitting too) and the pad
width `w` returns `zs ++ p ++ t`. Here `p` is the base-ten representation of `v + k`: a
minus sign exactly when `v + k` is negative, then a non-empty run `ds` of decimal digits
without a leading zero (unless it is the single digit `0`) whose value is the absolute
value of `v + k`; `zs` consists of `0` characters and brings the number to the length
`max w p.length`; `t` is unchanged. -/
theorem numberStart_replace (k : Int) (opts : Opts) (d t : List Char) (v : Nat)
    (hd : d ≠ []) (hdig : ∀ c ∈ d, c.isDigit = true)
    (ht : ∀ c ∈ t.head?, c.isDigit = false)
    (hval : Nat.ofDigits 10 (d.reverse.map (fun c => c.toNat - 48)) = v)
    (hv : v < 2 ^ 63) (hlow : -2 ^ 63 ≤ (v : Int) + k) (hhigh : (v : Int) + k < 2 ^ 63) :
    ∃ zs ds : List Char,
      NumberReplacer.Replace { op := k, start := true } opts ⟨d ++ t⟩ numStartRegex
        = .ok ⟨zs ++ ((if (v : Int) + k < 0 then ['-'] else []) ++ ds) ++ t⟩ ∧
      ds ≠ [] ∧ (∀ c ∈ ds, c.isDigit = true) ∧ (ds.head? = some '0' → ds = ['0']) ∧
      Nat.ofDigits 10 (ds.reverse.map (fun c => c.toNat - 48)) = ((v : Int) + k).natAbs ∧
      (∀ c ∈ zs, c = '0') ∧
      ((zs.length + ((if (v : Int) + k < 0 then ['-'] else []) ++ ds).length : Nat) : Int)
        = max opts.ZeroPad
            ((((if (v : Int) + k < 0 then ['-'] else []) ++ ds).length : Nat) : Int) := by
  have hdv : digitsValue d = v := by
    rw [← hval]
    exact digitsValue_eq_ofDigits d
  have hatoi : atoi ⟨d⟩ = some (v : Int) := by
    have h := atoi_digit_run d hd hdig (by rw [hdv]; exact hv)
    rw [hdv] at h
    exact h
  have hrep : NumberReplacer.Replace { op := k, start := true } opts ⟨d ++ t⟩ numStartRegex
      = .ok (zeroPad opts.ZeroPad (itoa ((v : Int) + k)) ++ ⟨t⟩) := by
    simp only [NumberReplacer.Replace, numStart_findString d t hd hdig ht, hatoi,
      wrapInt_of_fits _ hlow hhigh, if_true, stringsReplace_leading d t _ hd]
  obtain ⟨ds, hit, hne, hall, hhead, hvalue⟩ := itoa_base10 ((v : Int) + k)
  rw [hrep, hit]
  set p : List Char := (if (v : Int) + k < 0 then ['-'] else []) ++ ds with hp
  have hlen : (⟨p⟩ : String).length = p.length := rfl
  by_cases hw : opts.ZeroPad > ((p.length : Nat) : Int)
  · refine ⟨List.replicate (opts.ZeroPad - ((p.length : Nat) : Int)).toNat '0', ds,
      ?_, hne, hall, hhead, hvalue, ?_, ?_⟩
    · simp only [zeroPad, hlen, hw, if_true]
      rfl
    · intro c hc
      exact (List.mem_replicate.1 hc).2
    · change (((List.replicate (opts.ZeroPad - ((p.length : Nat) : Int)).toNat '0').length
        + p.length : Nat) : Int) = max opts.ZeroPad ((p.length : Nat) : Int)
      rw [List.length_replicate]
      omega
  · refine ⟨[], ds, ?_, hne, hall, hhead, hvalue, by simp, ?_⟩
    · simp only [zeroPad, hlen, hw, if_false]
      rfl
    · change ((([] : List Char).length + p.length : Nat) : Int)
        = max opts.ZeroPad ((p.length : Nat) : Int)
      simp only [List.length_nil, Nat.zero_add]
      omega

theorem numberStart_replace_witness :
    NumberReplacer.Replace { op := 1, start := true } { liveOpts with ZeroPad := 3 }
        "007frame.png" numStartRegex = .ok "008frame.png" ∧
    ∃ zs ds : List Char,
      NumberReplacer.Replace { op := 1, start := true } { liveOpts with ZeroPad := 3 }
          ⟨"007".data ++ "frame.png".data⟩ numStartRegex
        = .ok ⟨zs ++ ((if ((7 : Nat) : Int) + 1 < 0 then ['-'] else []) ++ ds)
            ++ "frame.png".data⟩ ∧
      ds ≠ [] ∧ (∀ c ∈ ds, c.isDigit = true) ∧ (ds.head? = some '0' → ds = ['0']) ∧
      Nat.ofDigits 10 (ds.reverse.map (fun c => c.toNat - 48))
        = (((7 : Nat) : Int) + 1).natAbs ∧
      (∀ c ∈ zs, c = '0') ∧
      ((zs.length + ((if ((7 : Nat) : Int) + 1 < 0 then ['-'] else []) ++ ds).length : Nat)
          : Int)
        = max (3 : Int)
            ((((if ((7 : Nat) : Int) + 1 < 0 then ['-'] else []) ++ ds).length : Nat)
              : Int) :=
  ⟨by decide,
    numberStart_replace 1 { liveOpts with ZeroPad := 3 } "007".data "frame.png".data 7
      (by decide) (by decide) (by decide) (by decide) (by decide) (by decide) (by decide)⟩

/-- The start-anchored numeric replacer on concrete names: the number is read in base
ten with its leading zeros, the delta is added, and the result is written in base ten
and padded to the width; a carry lengthens the number, a width below its length leaves
it alone, and for a negative result the zeros come before the minus sign. -/
theorem numberStart_examples :
    NumberReplacer.Replace { op := 1, start := true } { liveOpts with ZeroPad := 3 }
        "099frame.png" numStartRegex = .ok "100frame.png" ∧
      NumberReplacer.Replace { op := 1, start := true } { liveOpts with ZeroPad := 0 }
        "999x" numStartRegex = .ok "1000x" ∧
      NumberReplacer.Replace { op := 25, start := true } { liveOpts with ZeroPad := 5 }
        "0017-a1.txt" numStartRegex = .ok "00042-a1.txt" ∧
      NumberReplacer.Replace { op := -7, start := true } { liveOpts with ZeroPad := 0 }
        "007" numStartRegex = .ok "0" ∧
      NumberReplacer.Replace { op := -10, start := true } { liveOpts with ZeroPad := 3 }
        "5x" numStartRegex = .ok "0-5x" ∧
      NumberReplacer.Replace { op := 1, start := true } { liveOpts with ZeroPad := 3 }
        "x7" numStartRegex = .complained (.atoi "") := by
  decide

/-- C12: the end-anchored matcher accepts `frame007.png`, looking at the name without its
extension, but the end-anchored replacer looks for `\d+\z` in the whole name, finds
nothing and ends in `complain` with the error of `strconv.Atoi("")`; only on a name
without extension, as `frame007`, does it return `frame008`. -/
theorem numberEnd_fails_on_extension :
    NumberMatcher.Matches false "frame007.png" = some true ∧
      NumberReplacer.Replace { op := 1, start := false } { liveOpts with ZeroPad := 3 }
        "frame007.png" numEndRegex = .complained (.atoi "") ∧
      NumberReplacer.Replace { op := 1, start := false } { liveOpts with ZeroPad := 3 }
        "frame007" numEndRegex = .ok "frame008" := by
  decide

theorem eq_append_of_isPrefixOf (old s : List Char) (h : old.isPrefixOf s = true) :
    s = old ++ s.drop old.length := by
  induction old generalizing s with
  | nil => rfl
  | cons c old ih =>
    cases s with
    | nil => simp [List.isPrefixOf] at h
    | cons x xs =>
      simp only [List.isPrefixOf, Bool.and_eq_true, beq_iff_eq] at h
      obtain ⟨hcx, hrest⟩ := h
      subst hcx
      simp only [List.length_cons, List.drop_succ_cons, List.cons_append]
      rw [← ih xs hrest]

theorem indexOf_split (old : List Char) :
    ∀ (s : List Char) (i : Nat), indexOf old s = some i →
      s = s.take i ++ old ++ s.drop (i + old.length) := by
  intro s
  induction s with
  | nil =>
    intro i h
    simp only [indexOf] at h
    split at h
    · rename_i ho
      subst ho
      simp
    · simp at h
  | cons c cs ih =>
    intro i h
    simp only [indexOf] at h
    split at h
    · rename_i hp
      simp only [Option.some.injEq] at h
      subst h
      simpa using eq_append_of_isPrefixOf old (c :: cs) hp
    · simp only [Option.map_eq_some'] at h
      obtain ⟨j, hj, hji⟩ := h
      subst hji
      have := ih j hj
      simp only [List.take_succ_cons, List.cons_append, Nat.add_right_comm j 1,
        List.drop_succ_cons]
      exact congrArg _ this

theorem indexOf_bound (old : List Char) (hold : old ≠ []) (s : List Char) (i : Nat)
    (h : indexOf old s = some i) : i + old.length ≤ s.length := by
  have hpos : 0 < old.length := List.length_pos.2 hold
  have := congrArg List.length (indexOf_split old s i h)
  simp only [List.length_append, List.length_take, List.length_drop] at this
  omega

theorem scanReplace_skip (old new : List Char) (lim : Option Nat) :
    ∀ (skip : Nat) (s : List Char), skip ≤ s.length →
      scanReplace old new lim skip s = scanReplace old new lim 0 (s.drop skip) := by
  intro skip
  induction skip with
  | zero => intro s _; rfl
  | succ k ih =>
    intro s hs
    cases s with
    | nil => simp at hs
    | cons c cs =>
      simp only [scanReplace, List.drop_succ_cons]
      exact ih cs (by simpa using hs)

theorem scanReplace_zero (old new : List Char) :
    ∀ s : List Char, scanReplace old new (some 0) 0 s = s := by
  intro s
  induction s with
  | nil => simp [scanReplace]
  | cons c cs ih => simp [scanReplace, ih]

theorem scanReplace_not_found (old new : List Char) (hold : old ≠ []) (lim : Option Nat) :
    ∀ s : List Char, indexOf old s = none → scanReplace old new lim 0 s = s := by
  intro s
  induction s with
  | nil => intro _; simp [scanReplace, hold]
  | cons c cs ih =>
    intro h
    simp only [indexOf] at h
    split at h
    · simp at h
    · rename_i hp
      simp only [Option.map_eq_none'] at h
      simp [scanReplace, hp, ih h]

theorem scanReplace_found (old new : List Char) (hold : old ≠ []) (lim : Option Nat)
    (hlim : lim ≠ some 0) :
    ∀ (s : List Char) (i : Nat), indexOf old s = some i →
      scanReplace old new lim 0 s =
        s.take i ++ new ++ scanReplace old new (lim.map Nat.pred) 0 (s.drop (i + old.length)) := by
  intro s
  induction s with
  | nil =>
    intro i h
    simp [indexOf, hold] at h
  | cons c cs ih =>
    intro i h
    simp only [indexOf] at h
    split at h
    · rename_i hp
      simp only [Option.some.injEq] at h
      subst h
      have hlen : old.length ≤ (c :: cs).length := by
        have := congrArg List.length (eq_append_of_isPrefixOf old (c :: cs) hp)
        simp only [List.length_append] at this
        omega
      have hpos : 0 < old.length := List.length_pos.2 hold
      simp only [scanReplace, hlim, hp, hold, ne_eq, not_false_eq_true, and_self, if_true,
        if_false, List.take_zero, List.nil_append, Nat.zero_add]
      rw [scanReplace_skip old new _ (old.length - 1) cs
        (by simp only [List.length_cons] at hlen; omega)]
      have hdrop : (c :: cs).drop old.length = cs.drop (old.length - 1) := by
        obtain ⟨m, hm⟩ : ∃ m, old.length = m + 1 := ⟨old.length - 1, by omega⟩
        rw [hm]
        simp
      rw [hdrop]
    · rename_i hp
      simp only [Option.map_eq_some'] at h
      obtain ⟨j, hj, hji⟩ := h
      subst hji
      simp only [scanReplace, hp, and_false, if_false, Bool.false_eq_true, ih j hj,
        List.take_succ_cons, List.cons_append, Nat.add_right_comm j 1, List.drop_succ_cons]

/-- A loop of `strings.Replace` that runs for no more rounds than there are occurrences
replaces the first occurrences, one per round. -/
theorem replaceLoop_eq_scan (old new : List Char) (hold : old ≠ []) :
    ∀ (k fuel : Nat) (s : List Char) (later : Bool), k ≤ countFrom old fuel s →
      replaceLoop old new k later s = scanReplace old new (some k) 0 s := by
  intro k
  induction k with
  | zero =>
    intro fuel s later _
    rw [scanReplace_zero]
    rfl
  | succ k ih =>
    intro fuel s later hk
    cases fuel with
    | zero => simp [countFrom] at hk
    | succ fuel =>
      simp only [countFrom] at hk
      cases hi : indexOf old s with
      | none => simp [hi] at hk
      | some i =>
        simp only [hi] at hk
        rw [scanReplace_found old new hold (some (k + 1)) (by simp) s i hi]
        simp only [replaceLoop, hold, if_false, hi, Option.getD_some, Option.map_some',
          Nat.pred_succ]
        rw [ih fuel _ true (by omega)]

/-- A limit that is absent or not below the number of occurrences replaces them all. -/
theorem scanReplace_limit (old new : List Char) (hold : old ≠ []) :
    ∀ (fuel : Nat) (s : List Char) (lim : Option Nat), s.length < fuel →
      (lim = none ∨ ∃ k, lim = some k ∧ countFrom old fuel s ≤ k) →
      scanReplace old new lim 0 s = scanReplace old new (some (countFrom old fuel s)) 0 s := by
  intro fuel
  induction fuel with
  | zero => intro s lim h; omega
  | succ fuel ih =>
    intro s lim hlen hlim
    simp only [countFrom]
    cases hi : indexOf old s with
    | none =>
      simp only
      rw [scanReplace_not_found old new hold lim s hi, scanReplace_zero]
    | some i =>
      simp only
      have hlim0 : lim ≠ some 0 := by
        rcases hlim with h | ⟨k, hk, hle⟩
        · rw [h]; simp
        · simp only [countFrom, hi] at hle
          rw [hk]
          simp only [ne_eq, Option.some.injEq]
          omega
      have hpos : 0 < old.length := List.length_pos.2 hold
      have hbound := indexOf_bound old hold s i hi
      have hdl : (s.drop (i + old.length)).length < fuel := by
        rw [List.length_drop]
        omega
      have hpred : ∀ x : Nat, Nat.pred (1 + x) = x := fun x => by
        rw [Nat.pred_eq_sub_one]
        omega
      rw [scanReplace_found old new hold lim hlim0 s i hi,
        scanReplace_found old new hold (some (1 + countFrom old fuel (s.drop (i + old.length))))
          (by simp only [ne_eq, Option.some.injEq]; omega) s i hi]
      congr 1
      rw [ih (s.drop (i + old.length)) (lim.map Nat.pred) hdl ?_]
      · simp only [Option.map_some', hpred]
      · rcases hlim with h | ⟨k, hk, hle⟩
        · left; rw [h]; rfl
        · right
          simp only [countFrom, hi] at hle
          exact ⟨k - 1, by rw [hk]; rfl, by omega⟩

/-- Replacing a text by itself changes nothing. -/
theorem scanReplace_same (old : List Char) (hold : old ≠ []) :
    ∀ (fuel : Nat) (s : List Char) (lim : Option Nat), s.length < fuel →
      scanReplace old old lim 0 s = s := by
  intro fuel
  induction fuel with
  | zero => intro s lim h; omega
  | succ fuel ih =>
    intro s lim hlen
    cases hi : indexOf old s with
    | none => exact scanReplace_not_found old old hold lim s hi
    | some i =>
      by_cases hlim0 : lim = some 0
      · rw [hlim0]; exact scanReplace_zero old old s
      · have hpos : 0 < old.length := List.length_pos.2 hold
        have hbound := indexOf_bound old hold s i hi
        have hdl : (s.drop (i + old.length)).length < fuel := by
          rw [List.length_drop]
          omega
        rw [scanReplace_found old old hold lim hlim0 s i hi, ih _ _ hdl]
        exact (indexOf_split old s i hi).symm

theorem replaceLoop_empty_eq_scan (new : List Char) :
    ∀ (k : Nat) (s : List Char), k ≤ s.length →
      new ++ replaceLoop [] new k true s = scanReplace [] new (some (k + 1)) 0 s := by
  intro k
  induction k with
  | zero =>
    intro s _
    cases s with
    | nil => simp [replaceLoop, scanReplace]
    | cons c cs => simp [replaceLoop, scanReplace, List.isPrefixOf, scanReplace_zero]
  | succ k ih =>
    intro s hk
    cases s with
    | nil => simp at hk
    | cons c cs =>
      have := ih cs (by simpa using hk)
      simp only [replaceLoop, if_true, List.length_nil, Nat.add_zero, List.take_succ_cons,
        List.take_zero, List.drop_succ_cons, List.drop_zero, scanReplace, List.isPrefixOf,
        Option.map_some', Nat.pred_succ, ne_eq, Option.some.injEq, Nat.succ_ne_zero,
        not_false_eq_true, and_self]
      rw [← this]
      simp

theorem scanReplace_empty_limit (new : List Char) :
    ∀ (s : List Char) (lim : Option Nat),
      (lim = none ∨ ∃ k, lim = some k ∧ s.length + 1 ≤ k) →
      scanReplace [] new lim 0 s = scanReplace [] new (some (s.length + 1)) 0 s := by
  intro s
  induction s with
  | nil =>
    intro lim hlim
    rcases hlim with h | ⟨k, hk, hle⟩
    · simp [scanReplace, h]
    · have : k ≠ 0 := by simp at hle; omega
      simp [scanReplace, hk, this]
  | cons c cs ih =>
    intro lim hlim
    have hlim0 : lim ≠ some 0 := by
      rcases hlim with h | ⟨k, hk, hle⟩
      · rw [h]; simp
      · rw [hk]
        simp only [ne_eq, Option.some.injEq]
        omega
    have hnext : lim.map Nat.pred = none ∨
        ∃ k, lim.map Nat.pred = some k ∧ cs.length + 1 ≤ k := by
      rcases hlim with h | ⟨k, hk, hle⟩
      · left; rw [h]; rfl
      · right
        refine ⟨k - 1, by rw [hk]; rfl, ?_⟩
        simp only [List.length_cons] at hle
        omega
    simp only [scanReplace, hlim0, List.isPrefixOf, ne_eq, not_false_eq_true, and_self,
      if_true, List.length_cons, Option.some.injEq, Nat.succ_ne_zero, Option.map_some',
      Nat.pred_succ]
    rw [ih _ hnext]

theorem scanReplace_empty_same : ∀ (s : List Char) (lim : Option Nat),
    scanReplace [] [] lim 0 s = s := by
  intro s
  induction s with
  | nil => intro lim; simp [scanReplace]
  | cons c cs ih =>
    intro lim
    by_cases h : lim = some 0
    · rw [h]; exact scanReplace_zero [] [] _
    · simp [scanReplace, h, List.isPrefixOf, ih]

theorem indexOf_none_of_count_zero (old : List Char) (fuel : Nat) (s : List Char)
    (h : countFrom old (fuel + 1) s = 0) : indexOf old s = none := by
  simp only [countFrom] at h
  cases hi : indexOf old s with
  | none => rfl
  | some i =>
    rw [hi] at h
    simp only at h
    omega

/-- Go's `strings.Replace` replaces, scanning left to right, the first `n` occurrences of
`old`, or all of them when `n` is negative, and keeps the rest of the string. -/
theorem stringsReplace_eq_scan (s old new : String) (n : Int) :
    stringsReplace s old new n
      = ⟨scanReplace old.data new.data (limitOf n) 0 s.data⟩ := by
  have hstr : ∀ l : List Char, l = s.data → s = (⟨l⟩ : String) := by
    intro l hl
    rw [hl]
  unfold stringsReplace
  by_cases h1 : old = new
  · simp only [h1, true_or, if_true]
    apply hstr
    by_cases he : new.data = []
    · rw [he]; exact scanReplace_empty_same _ _
    · exact scanReplace_same new.data he (s.data.length + 1) s.data _ (Nat.lt_succ_self _)
  by_cases h2 : n = 0
  · simp only [h2, or_true, if_true]
    apply hstr
    simp only [limitOf, lt_self_iff_false, if_false, Int.toNat_zero]
    exact scanReplace_zero _ _ _
  simp only [h1, h2, false_or, if_false]
  by_cases he : old.data = []
  · -- the empty text occurs before every character and at the end
    have hm : stringsCount s.data old.data = s.data.length + 1 := by
      simp [stringsCount, he]
    simp only [hm, Nat.succ_ne_zero, if_false]
    congr 1
    rw [he]
    have hfirst : ∀ k, replaceLoop [] new.data (k + 1) false s.data
        = new.data ++ replaceLoop [] new.data k true s.data := by
      intro k
      simp [replaceLoop]
    by_cases hneg : n < 0
    · have hc : (n < 0 ∨ ((s.data.length + 1 : Nat) : Int) < n) := Or.inl hneg
      rw [if_pos hc]
      simp only [limitOf, hneg, if_true]
      rw [hfirst, replaceLoop_empty_eq_scan _ _ _ (Nat.le_refl _)]
      exact (scanReplace_empty_limit _ _ none (Or.inl rfl)).symm
    · by_cases hbig : ((s.data.length + 1 : Nat) : Int) < n
      · have hc : (n < 0 ∨ ((s.data.length + 1 : Nat) : Int) < n) := Or.inr hbig
        rw [if_pos hc]
        simp only [limitOf, hneg, if_false]
        rw [hfirst, replaceLoop_empty_eq_scan _ _ _ (Nat.le_refl _)]
        exact (scanReplace_empty_limit _ _ (some n.toNat)
          (Or.inr ⟨n.toNat, rfl, by omega⟩)).symm
      · have hc : ¬ (n < 0 ∨ ((s.data.length + 1 : Nat) : Int) < n) := by
          rintro (h | h)
          · exact hneg h
          · exact hbig h
        rw [if_neg hc]
        simp only [limitOf, hneg, if_false]
        obtain ⟨k, hk⟩ : ∃ k, n.toNat = k + 1 := ⟨n.toNat - 1, by omega⟩
        rw [hk, hfirst, replaceLoop_empty_eq_scan _ _ _ (by omega)]
  · have hm : stringsCount s.data old.data = countFrom old.data (s.data.length + 1) s.data := by
      simp [stringsCount, he]
    rw [hm]
    by_cases h3 : countFrom old.data (s.data.length + 1) s.data = 0
    · simp only [h3, if_true]
      apply hstr
      exact scanReplace_not_found _ _ he _ _ (indexOf_none_of_count_zero _ _ _ h3)
    · simp only [h3, if_false]
      congr 1
      by_cases hneg : n < 0
      · have hc : (n < 0 ∨ ((countFrom old.data (s.data.length + 1) s.data : Nat) : Int) < n) :=
          Or.inl hneg
        rw [if_pos hc]
        simp only [limitOf, hneg, if_true]
        rw [replaceLoop_eq_scan _ _ he _ _ _ _ (Nat.le_refl _)]
        exact (scanReplace_limit _ _ he (s.data.length + 1) s.data none
          (Nat.lt_succ_self _) (Or.inl rfl)).symm
      · by_cases hbig : ((countFrom old.data (s.data.length + 1) s.data : Nat) : Int) < n
        · have hc : (n < 0 ∨
              ((countFrom old.data (s.data.length + 1) s.data : Nat) : Int) < n) := Or.inr hbig
          rw [if_pos hc]
          simp only [limitOf, hneg, if_false]
          rw [replaceLoop_eq_scan _ _ he _ _ _ _ (Nat.le_refl _)]
          exact (scanReplace_limit _ _ he (s.data.length + 1) s.data (some n.toNat)
            (Nat.lt_succ_self _) (Or.inr ⟨n.toNat, rfl, by omega⟩)).symm
        · have hc : ¬ (n < 0 ∨
              ((countFrom old.data (s.data.length + 1) s.data : Nat) : Int) < n) := by
            rintro (h | h)
            · exact hneg h
            · exact hbig h
          rw [if_neg hc]
          simp only [limitOf, hneg, if_false]
          exact replaceLoop_eq_scan _ _ he _ (s.data.length + 1) _ _ (by omega)

/-- C14: `StringReplacer.Replace` without a pattern returns the name with the first `Num`
occurrences of `src`, scanned left to right without overlap (all of them when `Num` is
negative), replaced by the replacement and everything else unchanged; with `Num = 1`
the name `photo1.jpg` with `photo` replaced by `img` becomes `img1.jpg`. -/
theorem literal_replace (r : StringReplacer) (opts : Opts) (s src : String) :
    StringReplacer.Replace r opts s src none
        = some ⟨scanReplace src.data r.data (limitOf opts.Num) 0 s.data⟩ ∧
      StringReplacer.Replace "img" liveOpts "photo1.jpg" "photo" none = some "img1.jpg" := by
  refine ⟨?_, by decide⟩
  simp only [StringReplacer.Replace, stringsReplace_eq_scan]

theorem splitSlash_ne_nil (s : List Char) : splitSlash s ≠ [] := by
  induction s with
  | nil => simp [splitSlash]
  | cons c cs ih =>
    simp only [splitSlash]
    split
    · simp
    · split <;> simp

theorem splitSlash_no_slash (s : List Char) : ∀ e ∈ splitSlash s, '/' ∉ e := by
  induction s with
  | nil => simp [splitSlash]
  | cons c cs ih =>
    intro e he
    simp only [splitSlash] at he
    split at he
    · simp only [List.mem_cons] at he
      rcases he with h | h
      · rw [h]; simp
      · exact ih e h
    · rename_i hc
      split at he
      · simp only [List.mem_singleton] at he
        rw [he]
        simp only [List.mem_singleton]
        exact fun h => hc h.symm
      · rename_i e0 es heq
        simp only [List.mem_cons] at he
        rcases he with h | h
        · rw [h]
          simp only [List.mem_cons, not_or]
          exact ⟨fun h' => hc h'.symm, ih e0 (by rw [heq]; simp)⟩
        · exact ih e (by rw [heq]; simp [h])

theorem splitSlash_of_no_slash (e : List Char) (h : '/' ∉ e) : splitSlash e = [e] := by
  induction e with
  | nil => rfl
  | cons c cs ih =>
    simp only [List.mem_cons, not_or] at h
    have hc : ¬ c = '/' := fun h' => h.1 h'.symm
    simp [splitSlash, hc, ih h.2]

theorem splitSlash_append (e rest : List Char) (h : '/' ∉ e) :
    splitSlash (e ++ '/' :: rest) = e :: splitSlash rest := by
  induction e with
  | nil => simp [splitSlash]
  | cons c cs ih =>
    simp only [List.mem_cons, not_or] at h
    have hc : ¬ c = '/' := fun h' => h.1 h'.symm
    simp [splitSlash, hc, ih h.2]

theorem splitSlash_joinSlash (es : List (List Char)) (hne : es ≠ [])
    (h : ∀ e ∈ es, '/' ∉ e) : splitSlash (joinSlash es) = es := by
  induction es with
  | nil => exact absurd rfl hne
  | cons e es ih =>
    cases es with
    | nil => exact splitSlash_of_no_slash e (h e (by simp))
    | cons e' es =>
      simp only [joinSlash]
      rw [splitSlash_append e _ (h e (by simp)),
        ih (by simp) (fun x hx => h x (List.mem_cons_of_mem e hx))]

theorem joinSlash_snoc (es : List (List Char)) (x : List Char) (hne : es ≠ []) :
    joinSlash (es ++ [x]) = joinSlash es ++ '/' :: x := by
  induction es with
  | nil => exact absurd rfl hne
  | cons e es ih =>
    cases es with
    | nil => simp [joinSlash]
    | cons e' es =>
      have h0 : joinSlash (e' :: (es ++ [x])) = joinSlash (e' :: es) ++ '/' :: x :=
        ih (by simp)
      have h1 : joinSlash (e :: e' :: (es ++ [x]))
          = e ++ '/' :: joinSlash (e' :: (es ++ [x])) := rfl
      have h2 : joinSlash (e :: e' :: es) = e ++ '/' :: joinSlash (e' :: es) := rfl
      rw [List.cons_append, List.cons_append, h1, h2, h0]
      simp

theorem Canon.nil (rooted : Bool) : Canon rooted [] := by
  refine ⟨by simp, ?_⟩
  intro pre e post h
  simp at h

theorem Canon.left {rooted : Bool} {a b : List (List Char)} (h : Canon rooted (a ++ b)) :
    Canon rooted a := by
  refine ⟨fun e he => h.1 e (List.mem_append_left b he), ?_⟩
  intro pre e post hs he
  exact h.2 pre e (post ++ b) (by rw [hs]; simp) he

theorem Canon.snoc_plain {rooted : Bool} {out : List (List Char)} {e : List Char}
    (h : Canon rooted out) (h1 : e ≠ []) (h2 : '/' ∉ e) (h3 : e ≠ ['.'])
    (h4 : e ≠ dotdot) : Canon rooted (out ++ [e]) := by
  constructor
  · intro x hx
    simp only [List.mem_append, List.mem_singleton] at hx
    rcases hx with hx | hx
    · exact h.1 x hx
    · rw [hx]; exact ⟨h1, h2, h3⟩
  · intro pre x post hs hx
    rcases List.eq_nil_or_concat post with hp | ⟨post', y, hp⟩
    · subst hp
      have := List.append_inj_right' (hs.trans (by simp : pre ++ [x] = pre ++ [x])) rfl
      simp only [List.cons.injEq, and_true] at this
      exact absurd (this ▸ hx) h4
    · subst hp
      have hs' : out ++ [e] = (pre ++ x :: post') ++ [y] := by rw [hs]; simp
      have := List.append_inj_left' hs' rfl
      exact h.2 pre x post' this hx

theorem Canon.snoc_dotdot {out : List (List Char)} (h : Canon false out)
    (hall : ∀ y ∈ out, y = dotdot) : Canon false (out ++ [dotdot]) := by
  constructor
  · intro x hx
    simp only [List.mem_append, List.mem_singleton] at hx
    rcases hx with hx | hx
    · exact h.1 x hx
    · rw [hx]; simp [dotdot]
  · intro pre x post hs _
    refine ⟨rfl, ?_⟩
    intro y hy
    have hmem : y ∈ out ++ [dotdot] := by rw [hs]; simp [hy]
    simp only [List.mem_append, List.mem_singleton] at hmem
    rcases hmem with hm | hm
    · exact hall y hm
    · exact hm

theorem cleanStep_canon {rooted : Bool} {out : List (List Char)} {e : List Char}
    (h : Canon rooted out) (he : '/' ∉ e) : Canon rooted (cleanStep rooted out e) := by
  unfold cleanStep
  split
  · exact h
  · rename_i h1
    simp only [not_or] at h1
    split
    · rename_i hdd
      rcases List.eq_nil_or_concat out with hn | ⟨init, top, hc⟩
      · subst hn
        simp only [List.getLast?_nil]
        cases rooted with
        | true => exact h
        | false =>
          rw [hdd]
          exact Canon.snoc_dotdot h (by simp)
      · rw [List.concat_eq_append] at hc
        subst hc
        have hlast : (init ++ [top]).getLast? = some top := by simp
        rw [hlast]
        simp only
        split
        · rename_i htop
          obtain ⟨hr, hall⟩ := h.2 init top [] rfl htop
          subst hr
          rw [hdd]
          refine Canon.snoc_dotdot h ?_
          intro y hy
          simp only [List.mem_append, List.mem_singleton] at hy
          rcases hy with hy | hy
          · exact hall y hy
          · rw [hy]; exact htop
        · simp only [List.dropLast_concat]
          exact h.left
    · rename_i hdd
      exact h.snoc_plain h1.1 he h1.2 hdd

theorem foldl_cleanStep_canon {rooted : Bool} :
    ∀ (es out : List (List Char)), Canon rooted out → (∀ e ∈ es, '/' ∉ e) →
      Canon rooted (es.foldl (cleanStep rooted) out) := by
  intro es
  induction es with
  | nil => intro out h _; exact h
  | cons e es ih =>
    intro out h hes
    exact ih _ (cleanStep_canon h (hes e (by simp)))
      (fun x hx => hes x (List.mem_cons_of_mem e hx))

theorem cleanStep_of_canon {rooted : Bool} {out : List (List Char)} {e : List Char}
    (h : Canon rooted (out ++ [e])) : cleanStep rooted out e = out ++ [e] := by
  obtain ⟨h1, h2, h3⟩ := h.1 e (by simp)
  unfold cleanStep
  rw [if_neg (by simp [h1, h3])]
  split
  · rename_i hdd
    obtain ⟨hr, hall⟩ := h.2 out e [] rfl hdd
    cases hl : out.getLast? with
    | none => simp [hr]
    | some top =>
      have := hall top (List.mem_of_getLast?_eq_some hl)
      simp [this]
  · rfl

theorem foldl_cleanStep_id {rooted : Bool} (out : List (List Char))
    (h : Canon rooted out) : out.foldl (cleanStep rooted) [] = out := by
  induction out using List.reverseRecOn with
  | nil => rfl
  | append_singleton init e ih =>
    rw [List.foldl_append, ih h.left]
    simp only [List.foldl_cons, List.foldl_nil]
    exact cleanStep_of_canon h

/-- What `filepath.Clean` returns is the text of elements of the shape `Canon`. -/
theorem cleanPath_canon (q : List Char) :
    ∃ rooted out, cleanPath q = renderPath rooted out ∧ Canon rooted out := by
  unfold cleanPath
  split
  · exact ⟨false, [], rfl, Canon.nil false⟩
  · exact ⟨_, _, rfl, foldl_cleanStep_canon _ _ (Canon.nil _) (splitSlash_no_slash q)⟩

theorem dropWhile_append_all {p : Char → Bool} (l m : List Char) (h : ∀ c ∈ l, p c = true) :
    (l ++ m).dropWhile p = m.dropWhile p := by
  induction l with
  | nil => rfl
  | cons c l ih =>
    have hc := h c (by simp)
    simp only [List.cons_append, List.dropWhile_cons, hc, if_true]
    exact ih (fun x hx => h x (List.mem_cons_of_mem c hx))

theorem takeWhile_append_all {p : Char → Bool} (l m : List Char) (h : ∀ c ∈ l, p c = true) :
    (l ++ m).takeWhile p = l ++ m.takeWhile p := by
  induction l with
  | nil => rfl
  | cons c l ih =>
    have hc := h c (by simp)
    simp only [List.cons_append, List.takeWhile_cons, hc, if_true]
    rw [ih (fun x hx => h x (List.mem_cons_of_mem c hx))]

theorem dirPart_append (a x : List Char) (hx : '/' ∉ x) :
    dirPart (a ++ '/' :: x) = a ++ ['/'] := by
  unfold dirPart
  have hrev : (a ++ '/' :: x).reverse = x.reverse ++ '/' :: a.reverse := by simp
  rw [hrev, dropWhile_append_all]
  · simp
  · intro c hc
    have : c ≠ '/' := fun h => hx (h ▸ List.mem_reverse.1 hc)
    simpa using this

theorem dirPart_of_no_slash (x : List Char) (hx : '/' ∉ x) : dirPart x = [] := by
  unfold dirPart
  have := dropWhile_append_all (p := fun c => decide (c ≠ '/')) x.reverse [] (by
    intro c hc
    have : c ≠ '/' := fun h => hx (h ▸ List.mem_reverse.1 hc)
    simpa using this)
  simp only [List.append_nil] at this
  rw [this]
  rfl

theorem joinSlash_head {rooted : Bool} {out : List (List Char)} (h : Canon rooted out)
    (hne : out ≠ []) : ∃ c rest, joinSlash out = c :: rest ∧ c ≠ '/' := by
  cases out with
  | nil => exact absurd rfl hne
  | cons e es =>
    obtain ⟨h1, h2, _⟩ := h.1 e (by simp)
    cases e with
    | nil => exact absurd rfl h1
    | cons c e' =>
      have hc : c ≠ '/' := fun hc => h2 (by simp [hc])
      cases es with
      | nil => exact ⟨c, e', rfl, hc⟩
      | cons e2 es => exact ⟨c, e' ++ '/' :: joinSlash (e2 :: es), rfl, hc⟩

theorem renderPath_ne_nil {rooted : Bool} {out : List (List Char)} (h : Canon rooted out) :
    renderPath rooted out ≠ [] := by
  unfold renderPath
  cases rooted with
  | true => simp
  | false =>
    by_cases hne : out = []
    · simp [hne]
    · obtain ⟨c, rest, hj, _⟩ := joinSlash_head h hne
      simp [hne, hj]

theorem PlainName.canon_snoc {rooted : Bool} {out : List (List Char)} {x : List Char}
    (h : Canon rooted out) (hx : PlainName x) : Canon rooted (out ++ [x]) :=
  h.snoc_plain hx.1 hx.2.1 hx.2.2.1 hx.2.2.2

theorem cleanStep_skip_nil (rooted : Bool) (out : List (List Char)) :
    cleanStep rooted out [] = out := by
  simp [cleanStep]

theorem cleanStep_skip_dot (rooted : Bool) (out : List (List Char)) :
    cleanStep rooted out ['.'] = out := by
  simp [cleanStep]

/-- Cleaning a cleaned path with one more plain element appends that element. -/
theorem cleanPath_render_snoc {rooted : Bool} {out : List (List Char)} {x : List Char}
    (h : Canon rooted out) (hx : PlainName x) :
    cleanPath (renderPath rooted out ++ '/' :: x) = renderPath rooted (out ++ [x]) := by
  have hcx := hx.canon_snoc h
  have hsl : ∀ e ∈ out ++ [x], '/' ∉ e := fun e he => (hcx.1 e he).2.1
  unfold cleanPath
  rw [if_neg (by simp)]
  cases rooted with
  | true =>
    have hhead : (renderPath true out ++ '/' :: x).head? = some '/' := by
      simp [renderPath]
    simp only [hhead, decide_True]
    congr 1
    by_cases hne : out = []
    · subst hne
      have : splitSlash (renderPath true [] ++ '/' :: x) = [[], [], x] := by
        simp [renderPath, joinSlash, splitSlash, splitSlash_of_no_slash x hx.2.1]
      rw [this]
      simp only [List.foldl_cons, List.foldl_nil, cleanStep_skip_nil, List.nil_append]
      exact @cleanStep_of_canon true [] x hcx
    · have : splitSlash (renderPath true out ++ '/' :: x) = [] :: (out ++ [x]) := by
        simp only [renderPath, if_true, List.cons_append]
        rw [← joinSlash_snoc out x hne]
        simp only [splitSlash, if_true]
        rw [splitSlash_joinSlash _ (by simp) hsl]
      rw [this]
      simp only [List.foldl_cons, cleanStep_skip_nil]
      exact foldl_cleanStep_id _ hcx
  | false =>
    by_cases hne : out = []
    · subst hne
      have hr : renderPath false [] ++ '/' :: x = '.' :: '/' :: x := by simp [renderPath]
      have hs : splitSlash ('.' :: '/' :: x) = [['.'], x] := by
        simp [splitSlash, splitSlash_of_no_slash x hx.2.1]
      rw [hr, hs]
      have hd : decide (('.' :: '/' :: x).head? = some '/') = false := by simp
      rw [hd]
      simp only [List.foldl_cons, List.foldl_nil, cleanStep_skip_dot, List.nil_append]
      congr 1
      exact @cleanStep_of_canon false [] x hcx
    · have hr : renderPath false out ++ '/' :: x = joinSlash (out ++ [x]) := by
        simp only [renderPath, hne, if_false, Bool.false_eq_true]
        rw [joinSlash_snoc out x hne]
      obtain ⟨c, rest, hj, hc⟩ := joinSlash_head hcx (by simp)
      have hd : decide ((joinSlash (out ++ [x])).head? = some '/') = false := by
        rw [hj]
        simpa using hc
      rw [hr, hd, splitSlash_joinSlash _ (by simp) hsl]
      simp only [foldl_cleanStep_id _ hcx]

/-- A cleaned path that ends in a plain element `x` is a text `a`, empty or ending in a
separator, followed by `x`; `a` is what `filepath.Dir` cleans, and cleaning it gives the
path without `x`. -/
theorem renderPath_snoc_form {rooted : Bool} {out : List (List Char)} {x : List Char}
    (h : Canon rooted out) (hx : PlainName x) :
    ∃ a, renderPath rooted (out ++ [x]) = a ++ x ∧ (a = [] ∨ ∃ a', a = a' ++ ['/']) ∧
      dirPart (a ++ x) = a ∧ cleanPath a = renderPath rooted out := by
  have hslo : ∀ e ∈ out ++ [[]], '/' ∉ e := by
    intro e he
    simp only [List.mem_append, List.mem_singleton] at he
    rcases he with he | he
    · exact (h.1 e he).2.1
    · rw [he]; simp
  have hfold : ∀ r : Bool, Canon r out →
      (out ++ [[]]).foldl (cleanStep r) [] = out := by
    intro r hr
    rw [List.foldl_append, foldl_cleanStep_id _ hr]
    simp [cleanStep_skip_nil]
  cases rooted with
  | true =>
    by_cases hne : out = []
    · subst hne
      refine ⟨['/'], by simp [renderPath, joinSlash], Or.inr ⟨[], rfl⟩, ?_, by decide⟩
      exact dirPart_append [] x hx.2.1
    · refine ⟨'/' :: joinSlash out ++ ['/'], ?_, Or.inr ⟨_, rfl⟩, ?_, ?_⟩
      · simp only [renderPath, if_true]
        rw [joinSlash_snoc out x hne]
        simp
      · have := dirPart_append ('/' :: joinSlash out) x hx.2.1
        simpa using this
      · unfold cleanPath
        rw [if_neg (by simp)]
        have hhead : ('/' :: joinSlash out ++ ['/']).head? = some '/' := by simp
        simp only [hhead, decide_True]
        have hs : splitSlash ('/' :: joinSlash out ++ ['/']) = [] :: (out ++ [[]]) := by
          have e1 : '/' :: joinSlash out ++ ['/'] = '/' :: joinSlash (out ++ [[]]) := by
            rw [joinSlash_snoc out [] hne]
            rfl
          have e2 : splitSlash ('/' :: joinSlash (out ++ [[]]))
              = [] :: splitSlash (joinSlash (out ++ [[]])) := by
            simp [splitSlash]
          rw [e1, e2, splitSlash_joinSlash _ (by simp) hslo]
        rw [hs]
        simp only [List.foldl_cons, cleanStep_skip_nil, hfold true h]
  | false =>
    by_cases hne : out = []
    · subst hne
      refine ⟨[], by simp [renderPath, joinSlash], Or.inl rfl, ?_, by decide⟩
      exact dirPart_of_no_slash x hx.2.1
    · refine ⟨joinSlash out ++ ['/'], ?_, Or.inr ⟨_, rfl⟩, ?_, ?_⟩
      · simp only [renderPath, Bool.false_eq_true, if_false]
        rw [if_neg (by simp), joinSlash_snoc out x hne]
        simp
      · have := dirPart_append (joinSlash out) x hx.2.1
        simpa using this
      · unfold cleanPath
        rw [if_neg (by simp)]
        obtain ⟨c, rest, hj, hc⟩ := joinSlash_head h hne
        have hd : decide ((joinSlash out ++ ['/']).head? = some '/') = false := by
          rw [hj]
          simpa using hc
        rw [hd, ← joinSlash_snoc out [] hne, splitSlash_joinSlash _ (by simp) hslo]
        simp only [hfold false h, renderPath, hne, if_false, Bool.false_eq_true]

theorem base_of_form (a x : List Char) (ha : a = [] ∨ ∃ a', a = a' ++ ['/'])
    (hx : PlainName x) : filepathBase ⟨a ++ x⟩ = ⟨x⟩ := by
  obtain ⟨hne, hsl, _, _⟩ := hx
  have hxr : ∀ c ∈ x.reverse, c ≠ '/' := fun c hc h => hsl (h ▸ List.mem_reverse.1 hc)
  have hstrip : ((a ++ x).reverse.dropWhile (fun c => decide (c = '/'))).reverse = a ++ x := by
    have hr : (a ++ x).reverse = x.reverse ++ a.reverse := by simp
    rw [hr]
    cases hxrev : x.reverse with
    | nil => exact absurd (List.reverse_eq_nil_iff.1 hxrev) hne
    | cons c cs =>
      have hc : c ≠ '/' := hxr c (by rw [hxrev]; simp)
      simp only [List.cons_append, List.dropWhile_cons, hc, decide_False,
        Bool.false_eq_true, if_false]
      have : (c :: (cs ++ a.reverse)).reverse = a ++ (c :: cs).reverse := by simp
      rw [this, ← hxrev]
      simp
  have hlast : ((a ++ x).reverse.takeWhile (fun c => decide (c ≠ '/'))).reverse = x := by
    have hr : (a ++ x).reverse = x.reverse ++ a.reverse := by simp
    rw [hr, takeWhile_append_all _ _ (by intro c hc; simpa using hxr c hc)]
    rcases ha with ha | ⟨a', ha⟩
    · subst ha
      simp
    · subst ha
      simp
  have hne' : (⟨a ++ x⟩ : String) ≠ "" := by
    intro h
    have := congrArg String.data h
    simp only [List.append_eq_nil] at this
    exact hne this.2
  simp only [filepathBase, hne', if_false, hstrip, hlast, hne]

/-- C18, as stated, fails. For the file `d/x`: the empty new name, which the literal
replacer returns for `--from x` and the default `--to ""`, gives the destination `d`,
whose directory is `.` and whose last element is `d`; the new name `a/b` gives `d/a/b` in
the directory `d/a`; the new names `..` and `.` give `.` and `d`. -/
theorem record_leaves_directory :
    StringReplacer.Replace "" liveOpts "x" "x" none = some "" ∧
    (recordMatch "d/x" "").To = "d" ∧
    filepathDir (recordMatch "d/x" "").To ≠ filepathDir (recordMatch "d/x" "").From ∧
    filepathBase (recordMatch "d/x" "").To ≠ "" ∧
    filepathDir (recordMatch "d/x" "a/b").To ≠ filepathDir (recordMatch "d/x" "a/b").From ∧
    filepathBase (recordMatch "d/x" "a/b").To ≠ "a/b" ∧
    filepathDir (recordMatch "d/x" "..").To ≠ filepathDir (recordMatch "d/x" "..").From ∧
    filepathDir (recordMatch "d/x" ".").To ≠ filepathDir (recordMatch "d/x" ".").From := by
  decide

/-- C18, amended: for every file path and every new name that is one path element (not
empty, without separator, neither `.` nor `..`), the candidate recorded has its
destination in the directory of its source, with the new name as last element. -/
theorem record_same_directory (path newName : String) (h : PlainName newName.data) :
    filepathDir (recordMatch path newName).To = filepathDir (recordMatch path newName).From ∧
      filepathBase (recordMatch path newName).To = newName := by
  obtain ⟨rooted, out, hD, hC⟩ := cleanPath_canon (dirPart path.data)
  obtain ⟨a, hform, ha, hdir, hclean⟩ := renderPath_snoc_form hC h
  have hne : (⟨renderPath rooted out⟩ : String) ≠ "" := by
    intro hcon
    exact renderPath_ne_nil hC (congrArg String.data hcon)
  have hTo : (recordMatch path newName).To = ⟨a ++ newName.data⟩ := by
    simp only [recordMatch, filepathJoin, filepathDir, hD, hne, ne_eq, not_false_eq_true,
      if_true]
    rw [cleanPath_render_snoc hC h, hform]
  constructor
  · rw [hTo]
    simp only [recordMatch, filepathDir, hdir, hclean, hD]
  · rw [hTo]
    exact base_of_form a newName.data ha h

theorem record_same_directory_witness :
    filepathDir (recordMatch "a//b/../c/frame007.png" "frame008.png").To
        = filepathDir (recordMatch "a//b/../c/frame007.png" "frame008.png").From ∧
      filepathBase (recordMatch "a//b/../c/frame007.png" "frame008.png").To
        = "frame008.png" :=
  record_same_directory "a//b/../c/frame007.png" "frame008.png"
    ⟨by decide, by decide, by decide, by decide⟩

end GoRename
